import Mathlib

/-!
# Verification of the ffxiv_cli discrete-event combat simulator

This file is a shallow embedding, in Lean 4, of the parts of the
`ffxiv_cli` repository (`src/xivcore/core.py`, `src/xivcore/task.py`,
`src/xivcore/xivstats.py`, `src/xivcore/common.py`) that the specification's
claims are about, together with proofs or refutations of those claims.

Conventions used throughout:

* Python integers are modelled as `Int`; Python numbers that flow through
  true division (`/`) are modelled as `ℚ` (every value the claims exercise
  is an exact decimal, so rationals are an exact model of the float
  arithmetic involved).
* Python `None`-able values are `Option`; code that can raise is `Except`.
* Mutation is modelled by explicit state passing: each Python method
  becomes a function from the old state to the new state (plus outputs).
* `heapq` is modelled as a faithful port of CPython's `heappush`/`heappop`
  (including `_siftdown`/`_siftup`) acting on a `List`, with element
  comparison given by `Task.__lt__` from `task.py`, which compares `time`
  fields only.
-/

namespace XivCore

/-! ## Python `heapq`, as used through `Task.__lt__`

`task.py` defines `Task.__lt__(self, other) = self.time < other.time`.
`Arena.schedule_task` pushes tasks with `heapq.heappush`, and
`Arena._process_events` pops with `heapq.heappop`.  We port CPython's
`heapq.heappush`, `heapq.heappop`, `heapq._siftdown` and `heapq._siftup`
verbatim, generic in the element type `α` with a key function
`key : α → ℤ` standing for the `.time` attribute that `__lt__` compares.
`d : α` is an arbitrary default used to totalise list indexing; every
access is in range (proved where it matters). -/

section Heapq

variable {α : Type*} (key : α → ℤ) (d : α)

/-- CPython `heapq._siftdown(heap, startpos, pos)`: `newitem` starts at
`pos`; while above `startpos`, compare with the parent at `(pos-1)//2`
and move the parent down while `newitem < parent`; finally store
`newitem`. -/
def siftdown (startpos : Nat) (newitem : α) (heap : List α) (pos : Nat) : List α :=
  if _h : startpos < pos then
    let parentpos := (pos - 1) / 2
    let parent := heap.getD parentpos d
    if key newitem < key parent then
      siftdown startpos newitem (heap.set pos parent) parentpos
    else
      heap.set pos newitem
  else
    heap.set pos newitem
  termination_by pos
  decreasing_by omega

/-- CPython `heapq._siftup(heap, pos)` descent loop: repeatedly move the
smaller child up into the hole at `pos` (on a tie the *left* child is kept:
the code moves to the right child only when `not heap[child] < heap[right]`,
i.e. when `left ≥ right`... following CPython, the right child is chosen
exactly when `¬ (heap[childpos] < heap[rightpos])`).  Returns the array
with the hole moved to a leaf together with the hole's final position. -/
def siftupLoop (endpos : Nat) (heap : List α) (pos : Nat) : List α × Nat :=
  let childpos := 2 * pos + 1
  if _h : childpos < endpos then
    let rightpos := childpos + 1
    let childpos :=
      if rightpos < endpos ∧ ¬ key (heap.getD childpos d) < key (heap.getD rightpos d) then
        rightpos
      else childpos
    let heap := heap.set pos (heap.getD childpos d)
    siftupLoop endpos heap childpos
  else
    (heap, pos)
  termination_by endpos - pos
  decreasing_by split <;> omega

/-- CPython `heapq._siftup(heap, pos)`: move the hole at `pos` down to a
leaf, place `newitem = heap[pos]` there, then `_siftdown` back towards
`startpos = pos`. -/
def siftup (heap : List α) (pos : Nat) : List α :=
  let endpos := heap.length
  let startpos := pos
  let newitem := heap.getD pos d
  let hp := siftupLoop key d endpos heap pos
  siftdown key d startpos newitem (hp.1.set hp.2 newitem) hp.2

/-- CPython `heapq.heappush(heap, item)`: append then `_siftdown`. -/
def heappush (heap : List α) (item : α) : List α :=
  siftdown key d 0 item (heap ++ [item]) heap.length

/-- CPython `heapq.heappop(heap)`: remove the last element; if the heap is
still non-empty, return the root, move the last element to the root and
`_siftup`.  Returns `none` on an empty heap (CPython raises `IndexError`;
`Arena._process_events` guards every pop with a non-emptiness check). -/
def heappop (heap : List α) : Option (α × List α) :=
  if heap.isEmpty then none
  else if heap.dropLast.isEmpty then some (heap.getLast?.getD d, [])
  else some (heap.dropLast.getD 0 d,
    siftup key d (heap.dropLast.set 0 (heap.getLast?.getD d)) 0)

/-- The binary-heap invariant maintained by `heapq`: no child compares
strictly below its parent under `Task.__lt__`, i.e. parent keys are `≤`
child keys. -/
def IsHeap (heap : List α) : Prop :=
  ∀ j, 0 < j → j < heap.length →
    key (heap.getD ((j - 1) / 2) d) ≤ key (heap.getD j d)

end Heapq

/-! ### List indexing helper lemmas (totalised `getD` access) -/

section ListHelpers

variable {α : Type*} (d : α)

theorem getD_set_self {l : List α} {i : Nat} (v : α) (h : i < l.length) :
    (l.set i v).getD i d = v := by
  rw [List.getD_eq_getElem?_getD, List.getElem?_set_self h]
  rfl

theorem getD_set_ne {l : List α} {i j : Nat} (v : α) (h : i ≠ j) :
    (l.set i v).getD j d = l.getD j d := by
  rw [List.getD_eq_getElem?_getD, List.getElem?_set_ne h, ← List.getD_eq_getElem?_getD]

theorem getD_append_left {l l' : List α} {i : Nat} (h : i < l.length) :
    (l ++ l').getD i d = l.getD i d := by
  rw [List.getD_eq_getElem?_getD, List.getElem?_append_left h, ← List.getD_eq_getElem?_getD]

theorem getD_concat_length (l : List α) (x : α) :
    (l ++ [x]).getD l.length d = x := by
  rw [List.getD_eq_getElem?_getD, List.getElem?_concat_length]
  rfl

theorem getD_mem {l : List α} {i : Nat} (h : i < l.length) : l.getD i d ∈ l := by
  rw [List.getD_eq_getElem?_getD, List.getElem?_eq_getElem h]
  exact List.getElem_mem h

theorem getD_dropLast {l : List α} {i : Nat} (h : i < l.length - 1) :
    l.dropLast.getD i d = l.getD i d := by
  rw [List.getD_eq_getElem?_getD, List.getD_eq_getElem?_getD, List.dropLast_eq_take,
    List.getElem?_take]
  simp [h]

theorem getLast_getD {l : List α} {n : Nat} (h : l.length = n + 1) :
    l.getLast?.getD d = l.getD n d := by
  have hne : l ≠ [] := by intro hl; simp [hl] at h
  rw [List.getLast?_eq_getLast _ hne, List.getLast_eq_getElem]
  simp [List.getD_eq_getElem?_getD, List.getElem?_eq_getElem, h]

theorem dropLast_eq_nil_iff {l : List α} : l.dropLast = [] ↔ l.length ≤ 1 := by
  constructor
  · intro h
    have := congrArg List.length h
    simp only [List.length_dropLast, List.length_nil] at this
    omega
  · intro h
    have : l.dropLast.length = 0 := by
      simp only [List.length_dropLast]
      omega
    exact List.length_eq_zero.1 this

theorem forall_mem_set {l : List α} {p : α → Prop} (h : ∀ y ∈ l, p y) {x : α}
    (hx : p x) (i : Nat) : ∀ y ∈ l.set i x, p y := by
  intro y hy
  rcases List.mem_or_eq_of_mem_set hy with h' | rfl
  · exact h y h'
  · exact hx

/-- Sum, over a list, of a `Nat`-valued function; used as the termination
measure of the event-processing loop. -/
def listSum (f : α → Nat) (l : List α) : Nat := (l.map f).sum

theorem listSum_set {f : α → Nat} {l : List α} {i : Nat} (v : α) (h : i < l.length) :
    listSum f (l.set i v) + f (l.getD i d) = listSum f l + f v := by
  induction l generalizing i with
  | nil => simp at h
  | cons a t ih =>
    cases i with
    | zero => simp [listSum]; omega
    | succ n =>
      simp only [List.set, listSum, List.map_cons, List.sum_cons, List.getD_cons_succ]
      have := ih (i := n) (by simpa using h)
      simp only [listSum] at this
      omega

theorem listSum_append (f : α → Nat) (l l' : List α) :
    listSum f (l ++ l') = listSum f l + listSum f l' := by
  simp [listSum]

end ListHelpers

/-! ### Correctness of the `heapq` port

The lemmas below establish the facts the scheduler claims rely on: `heappush`
and `heappop` preserve the binary-heap invariant, the root of a valid heap
carries the minimal key, popping returns the root, and pushing an item that
does not compare below the root leaves the root in place.  The proofs track
CPython's "hole" optimisation: `_siftdown` carries `newitem` besides the
array, so during the loop the entry at the hole position is unconstrained;
the invariants `Hinv`/`Hchild`/`Hchild2` describe exactly the parent/child
relations that hold around the hole. -/

section HeapProofs

variable {α : Type*} (key : α → ℤ) (d : α)

theorem siftdown_length (startpos : Nat) (x : α) :
    ∀ (pos : Nat) (heap : List α),
      (siftdown key d startpos x heap pos).length = heap.length := by
  intro pos
  induction pos using Nat.strong_induction_on with
  | _ pos ih =>
    intro heap
    rw [siftdown]
    split
    · dsimp only
      split
      · rw [ih _ (by omega)]
        simp
      · simp
    · simp

theorem siftdown_forall_mem (startpos : Nat) (x : α) {p : α → Prop} (hx : p x) :
    ∀ (pos : Nat) (heap : List α), pos < heap.length → (∀ y ∈ heap, p y) →
      ∀ y ∈ siftdown key d startpos x heap pos, p y := by
  intro pos
  induction pos using Nat.strong_induction_on with
  | _ pos ih =>
    intro heap hpos hall
    rw [siftdown]
    split
    · dsimp only
      split
      · refine ih _ (by omega) _ (by simpa using by omega) ?_
        exact forall_mem_set hall (hall _ (getD_mem d (by omega))) pos
      · exact forall_mem_set hall hx pos
    · exact forall_mem_set hall hx pos

theorem siftdown_sum (f : α → Nat) (startpos : Nat) (x : α) :
    ∀ (pos : Nat) (heap : List α), pos < heap.length →
      listSum f (siftdown key d startpos x heap pos) + f (heap.getD pos d)
        = listSum f heap + f x := by
  intro pos
  induction pos using Nat.strong_induction_on with
  | _ pos ih =>
    intro heap hpos
    rw [siftdown]
    split
    · dsimp only
      split
      · have hlt : (pos - 1) / 2 < pos := by omega
        have hplt : (pos - 1) / 2 < heap.length := by omega
        have hA := ih _ hlt (heap.set pos (heap.getD ((pos - 1) / 2) d))
          (by simpa using by omega)
        rw [getD_set_ne d _ (by omega)] at hA
        have hB := listSum_set (f := f) d (heap.getD ((pos - 1) / 2) d) hpos
        omega
      · have := listSum_set (f := f) d x hpos
        omega
    · have := listSum_set (f := f) d x hpos
      omega

theorem siftdown_root_eq (x : α) :
    ∀ (pos : Nat) (heap : List α), 0 < pos →
      ¬ key x < key (heap.getD 0 d) →
      (siftdown key d 0 x heap pos).getD 0 d = heap.getD 0 d := by
  intro pos
  induction pos using Nat.strong_induction_on with
  | _ pos ih =>
    intro heap hpos hroot
    rw [siftdown]
    split
    · dsimp only
      split
      · rename_i hcmp
        -- the swap case: the parent cannot be the root, otherwise the
        -- comparison would contradict `hroot`
        have hppos : 0 < (pos - 1) / 2 := by
          rcases Nat.eq_zero_or_pos ((pos - 1) / 2) with h0 | h0
          · rw [h0] at hcmp
            exact absurd hcmp hroot
          · exact h0
        rw [ih _ (by omega) _ hppos (by rwa [getD_set_ne d _ (by omega)]),
          getD_set_ne d _ (by omega)]
      · rw [getD_set_ne d _ (by omega)]
    · omega

/-- Master lemma for `_siftdown` called with `startpos = 0` (the only way
the repository's code paths reach it): if the array is a heap everywhere
away from the hole `pos`, the hole's children dominate both `newitem`
(`Hchild`) and the hole's parent (`Hchild2`), then the result is a heap. -/
theorem siftdown_isHeap (x : α) :
    ∀ (pos : Nat) (heap : List α), pos < heap.length →
      (∀ j, 0 < j → j < heap.length → j ≠ pos → (j - 1) / 2 ≠ pos →
        key (heap.getD ((j - 1) / 2) d) ≤ key (heap.getD j d)) →
      (∀ j, 0 < j → j < heap.length → (j - 1) / 2 = pos →
        key x ≤ key (heap.getD j d)) →
      (∀ j, 0 < j → j < heap.length → (j - 1) / 2 = pos → 0 < pos →
        key (heap.getD ((pos - 1) / 2) d) ≤ key (heap.getD j d)) →
      IsHeap key d (siftdown key d 0 x heap pos) := by
  intro pos
  induction pos using Nat.strong_induction_on with
  | _ pos ih =>
    intro heap hpos Hinv Hchild Hchild2
    rw [siftdown]
    split
    · rename_i hpos0
      dsimp only
      split
      · rename_i hcmp
        -- swap: move the parent down into `pos`, the hole ascends
        set pp := (pos - 1) / 2 with hpp
        have hpplt : pp < pos := by omega
        have hpplen : pp < heap.length := by omega
        refine ih pp hpplt (heap.set pos (heap.getD pp d))
          (by simpa using hpplen) ?_ ?_ ?_
        · -- Hinv for the new hole at `pp`
          intro j hj hjlen hjne hjpar
          rw [List.length_set] at hjlen
          have hjnepos : j ≠ pos := by
            intro h; rw [h] at hjpar; exact hjpar rfl
          rw [getD_set_ne d (j := j) _ (by omega)]
          by_cases hja : (j - 1) / 2 = pos
          · -- `j` is a child of the old hole: use `Hchild2`
            rw [hja, getD_set_self d _ hpos]
            exact Hchild2 j hj hjlen hja hpos0
          · rw [getD_set_ne d _ (by omega)]
            exact Hinv j hj hjlen hjnepos hja
        · -- Hchild for the new hole at `pp`
          intro j hj hjlen hjpar
          rw [List.length_set] at hjlen
          by_cases hjp : j = pos
          · rw [hjp, getD_set_self d _ hpos]
            exact le_of_lt hcmp
          · rw [getD_set_ne d _ (by omega)]
            have := Hinv j hj hjlen hjp (by omega)
            rw [hjpar] at this
            exact le_trans (le_of_lt hcmp) this
        · -- Hchild2 for the new hole at `pp`
          intro j hj hjlen hjpar hpp0
          rw [List.length_set] at hjlen
          have hgp : key (heap.getD ((pp - 1) / 2) d) ≤ key (heap.getD pp d) :=
            Hinv pp hpp0 hpplen (by omega) (by omega)
          rw [getD_set_ne d (i := pos) (j := (pp - 1) / 2) _ (by omega)]
          by_cases hjp : j = pos
          · rw [hjp, getD_set_self d _ hpos]
            exact hgp
          · rw [getD_set_ne d _ (by omega)]
            have := Hinv j hj hjlen hjp (by omega)
            rw [hjpar] at this
            exact le_trans hgp this
      · rename_i hcmp
        -- stop: parent ≤ newitem; write newitem at `pos`
        intro j hj hjlen
        rw [List.length_set] at hjlen
        by_cases hjp : j = pos
        · subst hjp
          rw [getD_set_self d _ hpos, getD_set_ne d _ (by omega)]
          exact le_of_not_lt hcmp
        · by_cases hja : (j - 1) / 2 = pos
          · rw [hja, getD_set_self d _ hpos, getD_set_ne d _ (by omega)]
            exact Hchild j hj hjlen hja
          · rw [getD_set_ne d _ (by omega), getD_set_ne d _ (by omega)]
            exact Hinv j hj hjlen hjp hja
    · rename_i hpos0
      -- `pos = 0`: write newitem at the root
      have hpz : pos = 0 := by omega
      subst hpz
      intro j hj hjlen
      rw [List.length_set] at hjlen
      by_cases hja : (j - 1) / 2 = 0
      · rw [hja, getD_set_self d _ hpos, getD_set_ne d _ (by omega)]
        exact Hchild j hj hjlen hja
      · rw [getD_set_ne d _ (by omega), getD_set_ne d _ (by omega)]
        exact Hinv j hj hjlen (by omega) hja

theorem siftupLoop_length (endpos : Nat) :
    ∀ (n pos : Nat) (heap : List α), endpos - pos ≤ n →
      (siftupLoop key d endpos heap pos).1.length = heap.length := by
  intro n
  induction n with
  | zero =>
    intro pos heap h
    rw [siftupLoop]
    split
    · omega
    · rfl
  | succ n ih =>
    intro pos heap h
    rw [siftupLoop]
    split
    · dsimp only
      rw [ih _ _ (by split <;> omega)]
      simp
    · rfl

theorem siftupLoop_pos_lt (endpos : Nat) :
    ∀ (n pos : Nat) (heap : List α), endpos - pos ≤ n →
      pos < heap.length → endpos ≤ heap.length →
      (siftupLoop key d endpos heap pos).2 < (siftupLoop key d endpos heap pos).1.length := by
  intro n
  induction n with
  | zero =>
    intro pos heap h hpos _hend
    rw [siftupLoop]
    split
    · omega
    · exact hpos
  | succ n ih =>
    intro pos heap h hpos hend
    rw [siftupLoop]
    split
    · dsimp only
      refine ih _ _ (by split <;> omega) (by split <;> (rw [List.length_set]; omega))
        (by simp [hend])
    · exact hpos

theorem siftupLoop_forall_mem {p : α → Prop} (endpos : Nat) :
    ∀ (n pos : Nat) (heap : List α), endpos - pos ≤ n →
      endpos ≤ heap.length → (∀ y ∈ heap, p y) →
      ∀ y ∈ (siftupLoop key d endpos heap pos).1, p y := by
  intro n
  induction n with
  | zero =>
    intro pos heap h _hend hall
    rw [siftupLoop]
    split
    · omega
    · exact hall
  | succ n ih =>
    intro pos heap h hend hall
    rw [siftupLoop]
    split
    · dsimp only
      refine ih _ _ (by split <;> omega) (by simp [hend]) ?_
      exact forall_mem_set hall (hall _ (getD_mem d (by split <;> omega))) pos
    · exact hall

theorem siftupLoop_sum (f : α → Nat) (endpos : Nat) :
    ∀ (n pos : Nat) (heap : List α) (z : α), endpos - pos ≤ n →
      pos < heap.length → endpos ≤ heap.length →
      listSum f ((siftupLoop key d endpos heap pos).1.set
          (siftupLoop key d endpos heap pos).2 z)
        = listSum f (heap.set pos z) := by
  intro n
  induction n with
  | zero =>
    intro pos heap z h _hpos _hend
    rw [siftupLoop]
    split
    · omega
    · rfl
  | succ n ih =>
    intro pos heap z h hpos hend
    rw [siftupLoop]
    split
    · rename_i hchild
      dsimp only
      set c := if endpos > 2 * pos + 1 + 1 ∧
          ¬key (heap.getD (2 * pos + 1) d) < key (heap.getD (2 * pos + 1 + 1) d) then
          2 * pos + 1 + 1 else 2 * pos + 1 with hc
      have hcb : 2 * pos + 1 ≤ c ∧ c ≤ 2 * pos + 2 ∧ c < endpos := by
        rw [hc]; split <;> omega
      rw [ih _ _ _ (by omega) (by rw [List.length_set]; omega) (by simp [hend])]
      -- combine the three `listSum_set` identities
      have h1 := listSum_set (f := f) d (l := heap.set pos (heap.getD c d)) (i := c) z
        (by rw [List.length_set]; omega)
      rw [getD_set_ne d _ (by omega)] at h1
      have h2 := listSum_set (f := f) d (l := heap) (i := pos) (heap.getD c d) hpos
      have h3 := listSum_set (f := f) d (l := heap) (i := pos) z hpos
      omega
    · rfl

/-- Invariant preservation for the `_siftup` descent loop: starting from a
hole at `pos` whose surroundings satisfy the heap relations (`K1`) and
whose children dominate the hole's parent (`K2`), the loop ends with the
hole at a leaf (`endpos ≤ 2⬝p₂+1`) and `K1` still holding. -/
theorem siftupLoop_spec (endpos : Nat) :
    ∀ (n pos : Nat) (heap : List α), endpos - pos ≤ n →
      pos < heap.length → endpos = heap.length →
      (∀ j, 0 < j → j < heap.length → j ≠ pos → (j - 1) / 2 ≠ pos →
        key (heap.getD ((j - 1) / 2) d) ≤ key (heap.getD j d)) →
      (∀ j, 0 < j → j < heap.length → (j - 1) / 2 = pos → 0 < pos →
        key (heap.getD ((pos - 1) / 2) d) ≤ key (heap.getD j d)) →
      (endpos ≤ 2 * (siftupLoop key d endpos heap pos).2 + 1 ∧
        (∀ j, 0 < j → j < (siftupLoop key d endpos heap pos).1.length →
          j ≠ (siftupLoop key d endpos heap pos).2 →
          (j - 1) / 2 ≠ (siftupLoop key d endpos heap pos).2 →
          key ((siftupLoop key d endpos heap pos).1.getD ((j - 1) / 2) d)
            ≤ key ((siftupLoop key d endpos heap pos).1.getD j d))) := by
  intro n
  induction n with
  | zero =>
    intro pos heap h hpos hend K1 _K2
    rw [siftupLoop]
    split
    · omega
    · exact ⟨by omega, K1⟩
  | succ n ih =>
    intro pos heap h hpos hend K1 K2
    rw [siftupLoop]
    split
    · rename_i hchild
      dsimp only
      set c := if endpos > 2 * pos + 1 + 1 ∧
          ¬key (heap.getD (2 * pos + 1) d) < key (heap.getD (2 * pos + 1 + 1) d) then
          2 * pos + 1 + 1 else 2 * pos + 1 with hc
      have hcb : 2 * pos + 1 ≤ c ∧ c ≤ 2 * pos + 2 ∧ c < endpos := by
        rw [hc]; split <;> omega
      -- the chosen child is (weakly) the smaller of the two children
      have hsmall : ∀ s, 2 * pos + 1 ≤ s → s ≤ 2 * pos + 2 → s < endpos →
          key (heap.getD c d) ≤ key (heap.getD s d) := by
        intro s hs1 hs2 hs3
        rcases Nat.eq_or_lt_of_le hs1 with hseq | hslt
        · -- `s` is the left child
          subst hseq
          rw [hc]
          split
          · rename_i hcond
            exact le_of_not_lt hcond.2
          · exact le_rfl
        · -- `s` is the right child
          have hs : s = 2 * pos + 1 + 1 := by omega
          subst hs
          rw [hc]
          split
          · exact le_rfl
          · rename_i hcond
            rw [Decidable.not_and_iff_or_not] at hcond
            rcases hcond with hcond | hcond
            · omega
            · rw [not_not] at hcond
              exact le_of_lt hcond
      refine ih _ _ (by omega) (by rw [List.length_set]; omega) (by simp [hend]) ?_ ?_
      · -- K1 for the new hole at `c`
        intro j hj hjlen hjne hjpar
        rw [List.length_set] at hjlen
        by_cases hjp : j = pos
        · -- the old hole, now holding the moved-up child value
          subst hjp
          have hj0 : 0 < j := hj
          rw [getD_set_ne d (j := (j - 1) / 2) _ (by omega),
            getD_set_self d _ hpos]
          exact K2 c (by omega) (by omega) (by omega) (by omega)
        · by_cases hja : (j - 1) / 2 = pos
          · -- the sibling of the chosen child
            rw [hja, getD_set_self d _ hpos, getD_set_ne d _ (by omega)]
            exact hsmall j (by omega) (by omega) (by omega)
          · rw [getD_set_ne d (j := (j - 1) / 2) _ (by omega),
              getD_set_ne d (j := j) _ (by omega)]
            exact K1 j hj hjlen hjp hja
      · -- K2 for the new hole at `c`
        intro j hj hjlen hjpar _hc0
        rw [List.length_set] at hjlen
        have hcp : (c - 1) / 2 = pos := by omega
        have hjp : j ≠ pos := by omega
        rw [hcp, getD_set_self d _ hpos, getD_set_ne d _ (by omega)]
        have := K1 j hj hjlen hjp (by omega)
        rwa [hjpar] at this
    · exact ⟨by omega, K1⟩

theorem siftup_length (heap : List α) (pos : Nat) :
    (siftup key d heap pos).length = heap.length := by
  unfold siftup
  rw [siftdown_length, List.length_set, siftupLoop_length key d _ _ _ _ le_rfl]

theorem siftup_sum (f : α → Nat) (heap : List α) (pos : Nat) (hpos : pos < heap.length) :
    listSum f (siftup key d heap pos) = listSum f heap := by
  unfold siftup
  dsimp only
  have hp2 := siftupLoop_pos_lt key d heap.length _ pos heap le_rfl hpos le_rfl
  have hlen := siftupLoop_length key d heap.length _ pos heap le_rfl
  have hsd := siftdown_sum key d f pos (heap.getD pos d)
    (siftupLoop key d heap.length heap pos).2
    ((siftupLoop key d heap.length heap pos).1.set
      (siftupLoop key d heap.length heap pos).2 (heap.getD pos d))
    (by rw [List.length_set]; exact hp2)
  rw [getD_set_self d _ hp2] at hsd
  have hloop := siftupLoop_sum key d f heap.length _ pos heap (heap.getD pos d) le_rfl
    hpos le_rfl
  have hself := listSum_set (f := f) d (l := heap) (i := pos) (heap.getD pos d) hpos
  omega

theorem siftup_forall_mem {p : α → Prop} (heap : List α) (pos : Nat)
    (hpos : pos < heap.length) (hall : ∀ y ∈ heap, p y) :
    ∀ y ∈ siftup key d heap pos, p y := by
  unfold siftup
  dsimp only
  have hp2 := siftupLoop_pos_lt key d heap.length _ pos heap le_rfl hpos le_rfl
  refine siftdown_forall_mem key d _ _ (hall _ (getD_mem d hpos)) _ _
    (by rw [List.length_set]; exact hp2) ?_
  exact forall_mem_set
    (siftupLoop_forall_mem key d heap.length _ pos heap le_rfl le_rfl hall)
    (hall _ (getD_mem d hpos)) _

/-- `_siftup` restores the heap invariant after `heappop` moves the last
element into the root hole: if the array is a heap everywhere away from
index 0, sifting up from 0 yields a heap. -/
theorem siftup_isHeap (heap : List α) (h0 : 0 < heap.length)
    (K1 : ∀ j, 0 < j → j < heap.length → j ≠ 0 → (j - 1) / 2 ≠ 0 →
      key (heap.getD ((j - 1) / 2) d) ≤ key (heap.getD j d)) :
    IsHeap key d (siftup key d heap 0) := by
  unfold siftup
  dsimp only
  have hspec := siftupLoop_spec key d heap.length _ 0 heap le_rfl h0 rfl K1
    (by omega)
  have hp2 := siftupLoop_pos_lt key d heap.length _ 0 heap le_rfl h0 le_rfl
  have hlen := siftupLoop_length key d heap.length _ 0 heap le_rfl
  refine siftdown_isHeap key d _ _ _ (by rw [List.length_set]; exact hp2) ?_ ?_ ?_
  · intro j hj hjlen hjne hjpar
    rw [List.length_set] at hjlen
    rw [getD_set_ne d _ (by omega), getD_set_ne d _ (by omega)]
    exact hspec.2 j hj hjlen hjne hjpar
  · intro j hj hjlen hjpar
    rw [List.length_set] at hjlen
    omega
  · intro j hj hjlen hjpar _
    rw [List.length_set] at hjlen
    omega

theorem heappush_length (heap : List α) (x : α) :
    (heappush key d heap x).length = heap.length + 1 := by
  unfold heappush
  rw [siftdown_length]
  simp

theorem heappush_sum (f : α → Nat) (heap : List α) (x : α) :
    listSum f (heappush key d heap x) = listSum f heap + f x := by
  unfold heappush
  have := siftdown_sum key d f 0 x heap.length (heap ++ [x]) (by simp)
  rw [getD_concat_length] at this
  have happ : listSum f (heap ++ [x]) = listSum f heap + f x := by simp [listSum]
  omega

theorem heappush_forall_mem {p : α → Prop} (heap : List α) (x : α)
    (hall : ∀ y ∈ heap, p y) (hx : p x) : ∀ y ∈ heappush key d heap x, p y := by
  unfold heappush
  refine siftdown_forall_mem key d _ _ hx _ _ (by simp) ?_
  intro y hy
  rcases List.mem_append.1 hy with h | h
  · exact hall y h
  · simp at h
    rwa [h]

theorem heappush_isHeap {heap : List α} (h : IsHeap key d heap) (x : α) :
    IsHeap key d (heappush key d heap x) := by
  unfold heappush
  refine siftdown_isHeap key d _ _ _ (by simp) ?_ ?_ ?_
  · intro j hj hjlen hjne hjpar
    simp only [List.length_append, List.length_cons, List.length_nil] at hjlen
    rw [getD_append_left d (by omega), getD_append_left d (by omega)]
    exact h j hj (by omega)
  · intro j hj hjlen hjpar
    simp only [List.length_append, List.length_cons, List.length_nil] at hjlen
    omega
  · intro j hj hjlen hjpar _
    simp only [List.length_append, List.length_cons, List.length_nil] at hjlen
    omega

theorem heappush_root_eq {heap : List α} (hne : heap ≠ []) {x : α}
    (hroot : ¬ key x < key (heap.getD 0 d)) :
    (heappush key d heap x).getD 0 d = heap.getD 0 d := by
  have hlen : 0 < heap.length := List.length_pos.2 hne
  unfold heappush
  rw [siftdown_root_eq key d x heap.length (heap ++ [x]) hlen
    (by rwa [getD_append_left d hlen]), getD_append_left d hlen]

/-- In a valid heap the root carries the minimal key. -/
theorem isHeap_root_min {heap : List α} (h : IsHeap key d heap) :
    ∀ i, i < heap.length → key (heap.getD 0 d) ≤ key (heap.getD i d) := by
  intro i
  induction i using Nat.strong_induction_on with
  | _ i ih =>
    intro hi
    rcases Nat.eq_zero_or_pos i with h0 | h0
    · rw [h0]
    · exact le_trans (ih ((i - 1) / 2) (by omega) (by omega)) (h i h0 hi)

theorem heappop_eq_none_iff (heap : List α) :
    heappop key d heap = none ↔ heap = [] := by
  unfold heappop
  split
  · rename_i h
    simp [List.isEmpty_iff.1 h]
  · rename_i h
    constructor
    · intro hcontra
      split at hcontra <;> simp at hcontra
    · intro hcontra
      exact absurd (by rw [hcontra]; rfl) h

theorem heappop_root {heap : List α} {x : α} {rest : List α}
    (h : heappop key d heap = some (x, rest)) : x = heap.getD 0 d := by
  unfold heappop at h
  split at h
  · exact absurd h (by simp)
  · rename_i hne
    rw [List.isEmpty_iff] at hne
    split at h
    · rename_i hrest
      rw [List.isEmpty_iff, dropLast_eq_nil_iff] at hrest
      have hlen : heap.length = 1 := by
        have := List.length_pos.2 hne
        omega
      simp only [Option.some_inj, Prod.mk.injEq] at h
      rw [← h.1, getLast_getD d (n := 0) (by omega)]
    · rename_i hrest
      rw [List.isEmpty_iff, dropLast_eq_nil_iff, not_le] at hrest
      simp only [Option.some_inj, Prod.mk.injEq] at h
      rw [← h.1, getD_dropLast d (by omega)]

theorem heappop_length {heap : List α} {x : α} {rest : List α}
    (h : heappop key d heap = some (x, rest)) : rest.length = heap.length - 1 := by
  unfold heappop at h
  split at h
  · exact absurd h (by simp)
  · rename_i hne
    rw [List.isEmpty_iff] at hne
    split at h
    · rename_i hrest
      rw [List.isEmpty_iff, dropLast_eq_nil_iff] at hrest
      have hlen : heap.length = 1 := by
        have := List.length_pos.2 hne
        omega
      simp only [Option.some_inj, Prod.mk.injEq] at h
      rw [← h.2, hlen]
      rfl
    · simp only [Option.some_inj, Prod.mk.injEq] at h
      rw [← h.2, siftup_length, List.length_set, List.length_dropLast]

theorem heappop_sum (f : α → Nat) {heap : List α} {x : α} {rest : List α}
    (h : heappop key d heap = some (x, rest)) :
    listSum f heap = f x + listSum f rest := by
  have hx := heappop_root key d h
  unfold heappop at h
  split at h
  · exact absurd h (by simp)
  · rename_i hne
    rw [List.isEmpty_iff] at hne
    have hsplit := List.dropLast_concat_getLast hne
    split at h
    · rename_i hrest
      rw [List.isEmpty_iff, dropLast_eq_nil_iff] at hrest
      have hlen : heap.length = 1 := by
        have := List.length_pos.2 hne
        omega
      rcases heap with _ | ⟨a, t⟩
      · exact absurd rfl hne
      · have : t = [] := by
          simp only [List.length_cons] at hlen
          exact List.length_eq_zero.1 (by omega)
        subst this
        simp only [Option.some_inj, Prod.mk.injEq] at h
        rw [← h.1, ← h.2]
        simp [listSum, List.getLast?]
    · rename_i hrest
      rw [List.isEmpty_iff, dropLast_eq_nil_iff, not_le] at hrest
      simp only [Option.some_inj, Prod.mk.injEq] at h
      have hlast : listSum f heap
          = listSum f heap.dropLast + f (heap.getLast?.getD d) := by
        conv_lhs => rw [← hsplit]
        rw [listSum_append, List.getLast?_eq_getLast _ hne]
        simp [listSum]
      have hs : listSum f (siftup key d (heap.dropLast.set 0 (heap.getLast?.getD d)) 0)
          = listSum f (heap.dropLast.set 0 (heap.getLast?.getD d)) :=
        siftup_sum key d f _ 0 (by rw [List.length_set, List.length_dropLast]; omega)
      have hset := listSum_set (f := f) d (l := heap.dropLast) (i := 0)
        (heap.getLast?.getD d) (by rw [List.length_dropLast]; omega)
      rw [getD_dropLast d (by omega)] at hset
      rw [← h.2, ← h.1, hs, getD_dropLast d (by omega)]
      omega

theorem heappop_forall_mem {p : α → Prop} {heap : List α} {x : α} {rest : List α}
    (h : heappop key d heap = some (x, rest)) (hall : ∀ y ∈ heap, p y) :
    p x ∧ ∀ y ∈ rest, p y := by
  have hx := heappop_root key d h
  unfold heappop at h
  split at h
  · exact absurd h (by simp)
  · rename_i hne
    rw [List.isEmpty_iff] at hne
    have hlen := List.length_pos.2 hne
    refine ⟨by rw [hx]; exact hall _ (getD_mem d hlen), ?_⟩
    split at h
    · simp only [Option.some_inj, Prod.mk.injEq] at h
      rw [← h.2]
      simp
    · rename_i hrest
      rw [List.isEmpty_iff, dropLast_eq_nil_iff, not_le] at hrest
      simp only [Option.some_inj, Prod.mk.injEq] at h
      rw [← h.2]
      have hallrest : ∀ y ∈ heap.dropLast.set 0 (heap.getLast?.getD d), p y := by
        refine forall_mem_set ?_ ?_ 0
        · intro y hy
          exact hall y ((List.dropLast_sublist heap).subset hy)
        · rw [getLast_getD d (n := heap.length - 1) (by omega)]
          exact hall (heap.getD (heap.length - 1) d)
            (getD_mem (l := heap) (i := heap.length - 1) d (by omega))
      exact siftup_forall_mem key d _ 0
        (by rw [List.length_set, List.length_dropLast]; omega) hallrest

theorem heappop_isHeap {heap : List α} {x : α} {rest : List α}
    (hh : IsHeap key d heap) (h : heappop key d heap = some (x, rest)) :
    IsHeap key d rest := by
  unfold heappop at h
  split at h
  · exact absurd h (by simp)
  · rename_i hne
    rw [List.isEmpty_iff] at hne
    split at h
    · simp only [Option.some_inj, Prod.mk.injEq] at h
      rw [← h.2]
      intro j hj hjlen
      simp at hjlen
    · rename_i hrest
      rw [List.isEmpty_iff, dropLast_eq_nil_iff, not_le] at hrest
      simp only [Option.some_inj, Prod.mk.injEq] at h
      rw [← h.2]
      refine siftup_isHeap key d _
        (by rw [List.length_set, List.length_dropLast]; omega) ?_
      intro j hj hjlen hjne hjpar
      rw [List.length_set, List.length_dropLast] at hjlen
      rw [getD_set_ne d _ (by omega), getD_set_ne d _ (by omega),
        getD_dropLast d (by omega), getD_dropLast d (by omega)]
      exact hh j hj (by omega)

end HeapProofs

/-! ## The Arena scheduler (`core.py`, `Arena`)

`Arena` owns `task_queue` (a `heapq` of `Task`s), `current_time`, and the
character lists.  Characters are external to the claims about the scheduler
("for every combination of character/status/rotation states"), so they are
modelled by an abstract type `E` together with the two functions the Arena
calls on them:

* `calcE : E → Option ℤ`, standing for `Entity.calc_step_size`;
* `stepE : E → ℤ → E × List (ℤ × Cb E)`, standing for `Entity.step`; besides
  the updated entity it reports, in call order, the `schedule_task(delay,
  callback)` invocations the step performed (e.g. `prepare_damage`).

A Python task callback can mutate entities and call `schedule_task` again
(e.g. the recurring `server_tick`).  Callbacks are therefore modelled by the
command language `Cb`: a finite sequence of entity-effects and
`schedule_task(delay, callback)` calls.  The source steps `players` and then
`enemies` with identical treatment; the model keeps one combined entity list
in that order. -/

/-- A Python callback closure, abstracted to what it can do to the Arena:
apply an effect to the entities and schedule further tasks. -/
inductive Cb (E : Type) where
  | noop : Cb E
  | eff : (List E → List E) → Cb E → Cb E
  | sched : ℤ → Cb E → Cb E → Cb E

/-- `Task` from `task.py`: a fire time plus a callback (`args`/`kwargs` are
folded into the callback closure).  `tag` models the Python object identity
of the task; it is never read by the algorithm (only `Task.__lt__`, which
compares `time`, is) and serves to observe execution order. -/
structure PyTask (E : Type) where
  time : ℤ
  tag : ℕ
  cb : Cb E

/-- The key that `Task.__lt__` compares: `self.time < other.time`. -/
def taskKey {E : Type} (t : PyTask E) : ℤ := t.time

/-- Default element for totalised list indexing; never observable. -/
def dummyTask (E : Type) : PyTask E := ⟨0, 0, Cb.noop⟩

/-- Running a callback: returns the updated entity list and the
`(delay, callback)` pairs passed to `schedule_task`, in call order. -/
def Cb.exec {E : Type} : Cb E → List E → List E × List (ℤ × Cb E)
  | .noop, es => (es, [])
  | .eff f k, es => Cb.exec k (f es)
  | .sched delay c k, es =>
      let r := Cb.exec k es
      (r.1, (delay, c) :: r.2)

/-- Structural size of a callback's scheduling behaviour: each `sched` node
contributes `1 +` the weight of the scheduled callback.  Executing a
callback enqueues tasks of total weight exactly `weight cb` (see
`Cb.exec_weight`), which is what makes the event loop terminate. -/
def Cb.weight {E : Type} : Cb E → ℕ
  | .noop => 0
  | .eff _ k => Cb.weight k
  | .sched _ c k => 1 + Cb.weight c + Cb.weight k

/-- Every `schedule_task` delay issued by the callback (including nested
ones) is non-negative — true of every callback in the repository
(`server_tick` uses 3000, `prepare_damage` uses the animation-lock delay,
the job module uses fixed non-negative delays). -/
def Cb.Nonneg {E : Type} : Cb E → Prop
  | .noop => True
  | .eff _ k => Cb.Nonneg k
  | .sched delay c k => 0 ≤ delay ∧ Cb.Nonneg c ∧ Cb.Nonneg k

/-- Measure of one queued task for the event-loop termination argument. -/
def taskWeight {E : Type} (t : PyTask E) : ℕ := 1 + t.cb.weight

theorem Cb.exec_weight {E : Type} (cb : Cb E) (es : List E) :
    listSum (fun p : ℤ × Cb E => 1 + p.2.weight) (cb.exec es).2 = cb.weight := by
  induction cb generalizing es with
  | noop => rfl
  | eff f k ih => exact ih (f es)
  | sched delay c k ihc ihk =>
    simp only [Cb.exec, Cb.weight, listSum, List.map_cons, List.sum_cons]
    have := ihk es
    simp only [listSum] at this
    omega

theorem Cb.exec_nonneg {E : Type} {cb : Cb E} (h : cb.Nonneg) (es : List E) :
    ∀ p ∈ (cb.exec es).2, 0 ≤ p.1 ∧ p.2.Nonneg := by
  induction cb generalizing es with
  | noop => intro p hp; simp [Cb.exec] at hp
  | eff f k ih => exact ih h (f es)
  | sched delay c k ihc ihk =>
    intro p hp
    simp only [Cb.exec, List.mem_cons] at hp
    rcases hp with rfl | hp
    · exact ⟨h.1, h.2.1⟩
    · exact ihk h.2.2 es p hp

/-- The Arena state (`Arena.__init__`): the task queue, the current
simulation time (defaults to `-30_000`, the pre-pull countdown), and the
entities (`players` followed by `enemies`).  `next_tag` dispenses fresh
task identities and models nothing but Python object identity. -/
structure ArenaSt (E : Type) where
  task_queue : List (PyTask E)
  current_time : ℤ
  entities : List E
  next_tag : ℕ

variable {E : Type}

/-- `Arena.schedule_task(delay, callback)`:
`heappush(task_queue, Task(current_time + delay, callback))`. -/
def scheduleTask (st : ArenaSt E) (delay : ℤ) (cb : Cb E) : ArenaSt E :=
  { st with
    task_queue := heappush taskKey (dummyTask E) st.task_queue
      ⟨st.current_time + delay, st.next_tag, cb⟩
    next_tag := st.next_tag + 1 }

/-- Push a batch of `(delay, callback)` pairs in order. -/
def scheduleAll (st : ArenaSt E) (ps : List (ℤ × Cb E)) : ArenaSt E :=
  ps.foldl (fun s p => scheduleTask s p.1 p.2) st

/-- One execution of `Arena._process_events`'s loop body as the source
orders it: peek the root, run `event.execute()` (which may push new
tasks), then `heappop`.  Termination is by fuel; `processEvents` supplies
fuel that provably suffices whenever all queued callbacks schedule with
non-negative delays (`processEventsGo_spec`).  Returns the final state and
the log of executed tasks in execution order. -/
def processEventsGo (fuel : ℕ) (st : ArenaSt E) (log : List (PyTask E)) :
    ArenaSt E × List (PyTask E) :=
  match fuel with
  | 0 => (st, log)
  | fuel + 1 =>
    if st.task_queue.isEmpty then (st, log)
    else
      let event := st.task_queue.getD 0 (dummyTask E)
      if st.current_time < event.time then (st, log)
      else
        let r := event.cb.exec st.entities
        let st1 := scheduleAll { st with entities := r.1 } r.2
        match heappop taskKey (dummyTask E) st1.task_queue with
        | none => (st1, log ++ [event])  -- unreachable: the queue is non-empty
        | some (_, q) =>
          processEventsGo fuel { st1 with task_queue := q } (log ++ [event])

/-- `Arena._process_events()`: run the loop with enough fuel for the
current queue (one unit per unit of queued task weight). -/
def processEvents (st : ArenaSt E) : ArenaSt E × List (PyTask E) :=
  processEventsGo (listSum taskWeight st.task_queue + 1) st []

/-! ### Scheduler lemmas -/

theorem mem_getD_of_mem {α : Type*} (d : α) {l : List α} {t : α} (h : t ∈ l) :
    ∃ i, i < l.length ∧ l.getD i d = t := by
  rcases List.mem_iff_getElem.1 h with ⟨i, hi, rfl⟩
  exact ⟨i, hi, by rw [List.getD_eq_getElem?_getD, List.getElem?_eq_getElem hi]; rfl⟩

theorem isHeap_root_le_of_mem {α : Type*} {key : α → ℤ} {d : α} {l : List α}
    (hh : IsHeap key d l) {t : α} (ht : t ∈ l) : key (l.getD 0 d) ≤ key t := by
  rcases mem_getD_of_mem d ht with ⟨i, hi, rfl⟩
  exact isHeap_root_min key d hh i hi

theorem scheduleAll_time (ps : List (ℤ × Cb E)) :
    ∀ st : ArenaSt E, (scheduleAll st ps).current_time = st.current_time := by
  induction ps with
  | nil => intro st; rfl
  | cons p ps ih => intro st; exact ih _

theorem scheduleAll_entities (ps : List (ℤ × Cb E)) :
    ∀ st : ArenaSt E, (scheduleAll st ps).entities = st.entities := by
  induction ps with
  | nil => intro st; rfl
  | cons p ps ih => intro st; exact ih _

theorem scheduleAll_length (ps : List (ℤ × Cb E)) :
    ∀ st : ArenaSt E,
      (scheduleAll st ps).task_queue.length = st.task_queue.length + ps.length := by
  induction ps with
  | nil => intro st; rfl
  | cons p ps ih =>
    intro st
    rw [show scheduleAll st (p :: ps) = scheduleAll (scheduleTask st p.1 p.2) ps from rfl,
      ih]
    simp [scheduleTask, heappush_length]
    omega

theorem scheduleAll_sum (ps : List (ℤ × Cb E)) :
    ∀ st : ArenaSt E,
      listSum taskWeight (scheduleAll st ps).task_queue
        = listSum taskWeight st.task_queue
          + listSum (fun p : ℤ × Cb E => 1 + p.2.weight) ps := by
  induction ps with
  | nil => intro st; simp [scheduleAll, listSum]
  | cons p ps ih =>
    intro st
    rw [show scheduleAll st (p :: ps) = scheduleAll (scheduleTask st p.1 p.2) ps from rfl,
      ih]
    have hpush := heappush_sum taskKey (dummyTask E) taskWeight st.task_queue
      ⟨st.current_time + p.1, st.next_tag, p.2⟩
    simp only [scheduleTask]
    rw [hpush]
    simp only [listSum, List.map_cons, List.sum_cons, taskWeight]
    omega

theorem scheduleAll_isHeap (ps : List (ℤ × Cb E)) :
    ∀ st : ArenaSt E, IsHeap taskKey (dummyTask E) st.task_queue →
      IsHeap taskKey (dummyTask E) (scheduleAll st ps).task_queue := by
  induction ps with
  | nil => intro st h; exact h
  | cons p ps ih =>
    intro st h
    exact ih _ (heappush_isHeap taskKey (dummyTask E) h _)

theorem scheduleAll_nonneg (ps : List (ℤ × Cb E)) :
    ∀ st : ArenaSt E, (∀ t ∈ st.task_queue, t.cb.Nonneg) →
      (∀ p ∈ ps, (p.2 : Cb E).Nonneg) →
      ∀ t ∈ (scheduleAll st ps).task_queue, t.cb.Nonneg := by
  induction ps with
  | nil => intro st h _; exact h
  | cons p ps ih =>
    intro st h hps
    refine ih _ ?_ (fun q hq => hps q (List.mem_cons_of_mem _ hq))
    exact heappush_forall_mem taskKey (dummyTask E) _ _ h
      (hps p (List.mem_cons_self _ _))

theorem scheduleAll_bound (ps : List (ℤ × Cb E)) (b : ℤ) :
    ∀ st : ArenaSt E, (∀ t ∈ st.task_queue, b ≤ t.time) →
      (∀ p ∈ ps, b ≤ st.current_time + p.1) →
      ∀ t ∈ (scheduleAll st ps).task_queue, b ≤ t.time := by
  induction ps with
  | nil => intro st h _; exact h
  | cons p ps ih =>
    intro st h hps
    refine ih _ ?_ ?_
    · exact heappush_forall_mem taskKey (dummyTask E) (p := fun t => b ≤ t.time) _ _ h
        (hps p (List.mem_cons_self _ _))
    · intro q hq
      exact hps q (List.mem_cons_of_mem _ hq)

theorem scheduleAll_root (ps : List (ℤ × Cb E)) :
    ∀ st : ArenaSt E, st.task_queue ≠ [] →
      (∀ p ∈ ps, (st.task_queue.getD 0 (dummyTask E)).time ≤ st.current_time + p.1) →
      (scheduleAll st ps).task_queue.getD 0 (dummyTask E)
        = st.task_queue.getD 0 (dummyTask E) := by
  induction ps with
  | nil => intro st _ _; rfl
  | cons p ps ih =>
    intro st hne hps
    have hroot : (heappush taskKey (dummyTask E) st.task_queue
        ⟨st.current_time + p.1, st.next_tag, p.2⟩).getD 0 (dummyTask E)
        = st.task_queue.getD 0 (dummyTask E) := by
      refine heappush_root_eq taskKey (dummyTask E) hne ?_
      simp only [taskKey, not_lt]
      exact hps p (List.mem_cons_self _ _)
    have hne' : (heappush taskKey (dummyTask E) st.task_queue
        ⟨st.current_time + p.1, st.next_tag, p.2⟩) ≠ [] := by
      intro hcontra
      have := congrArg List.length hcontra
      rw [heappush_length] at this
      simp at this
    have harg : ∀ q ∈ ps,
        ((scheduleTask st p.1 p.2).task_queue.getD 0 (dummyTask E)).time
          ≤ (scheduleTask st p.1 p.2).current_time + q.1 := by
      intro q hq
      have : (scheduleTask st p.1 p.2).task_queue.getD 0 (dummyTask E)
          = st.task_queue.getD 0 (dummyTask E) := hroot
      rw [this]
      exact hps q (List.mem_cons_of_mem _ hq)
    calc (scheduleAll st (p :: ps)).task_queue.getD 0 (dummyTask E)
        = (scheduleAll (scheduleTask st p.1 p.2) ps).task_queue.getD 0 (dummyTask E) :=
          rfl
      _ = (scheduleTask st p.1 p.2).task_queue.getD 0 (dummyTask E) := ih _ hne' harg
      _ = st.task_queue.getD 0 (dummyTask E) := hroot

/-- Invariant lemma for `Arena._process_events`: starting from a valid heap
whose callbacks only schedule with non-negative delays, with fuel exceeding
the queued task weight, the loop (i) does not touch `current_time`,
(ii) ends with every remaining task strictly in the future, (iii) preserves
the heap invariant and the delay discipline, and (iv) appends to the log a
run of executed tasks that is non-decreasing in fire time, all due, and all
below every task left in the queue. -/
theorem processEventsGo_spec (fuel : ℕ) :
    ∀ (st : ArenaSt E) (log : List (PyTask E)),
      IsHeap taskKey (dummyTask E) st.task_queue →
      (∀ t ∈ st.task_queue, t.cb.Nonneg) →
      listSum taskWeight st.task_queue < fuel →
      List.Chain' (fun a b : PyTask E => a.time ≤ b.time) log →
      (∀ a ∈ log, a.time ≤ st.current_time) →
      (∀ a ∈ log, ∀ t ∈ st.task_queue, a.time ≤ t.time) →
      (processEventsGo fuel st log).1.current_time = st.current_time ∧
      IsHeap taskKey (dummyTask E) (processEventsGo fuel st log).1.task_queue ∧
      (∀ t ∈ (processEventsGo fuel st log).1.task_queue, t.cb.Nonneg) ∧
      (∀ t ∈ (processEventsGo fuel st log).1.task_queue, st.current_time < t.time) ∧
      List.Chain' (fun a b : PyTask E => a.time ≤ b.time) (processEventsGo fuel st log).2 ∧
      (∀ a ∈ (processEventsGo fuel st log).2, a.time ≤ st.current_time) ∧
      (∀ a ∈ (processEventsGo fuel st log).2,
        ∀ t ∈ (processEventsGo fuel st log).1.task_queue, a.time ≤ t.time) := by
  induction fuel with
  | zero =>
    intro st log _ _ hfuel _ _ _
    omega
  | succ fuel ih =>
    intro st log Hheap Hcb Hfuel Hchain Hdue Hbelow
    rw [processEventsGo]
    by_cases hemp : st.task_queue.isEmpty
    · rw [if_pos hemp]
      rw [List.isEmpty_iff] at hemp
      refine ⟨rfl, Hheap, Hcb, ?_, Hchain, Hdue, Hbelow⟩
      intro t ht
      rw [hemp] at ht
      simp at ht
    · rw [if_neg hemp]
      rw [List.isEmpty_iff] at hemp
      by_cases hfut : st.current_time < (st.task_queue.getD 0 (dummyTask E)).time
      · rw [if_pos hfut]
        refine ⟨rfl, Hheap, Hcb, ?_, Hchain, Hdue, Hbelow⟩
        intro t ht
        exact lt_of_lt_of_le hfut (isHeap_root_le_of_mem Hheap ht)
      · rw [if_neg hfut]
        rw [not_lt] at hfut
        dsimp only
        -- abbreviations for the executed event and the post-execution state
        set ev : PyTask E := st.task_queue.getD 0 (dummyTask E) with hev
        have hevmem : ev ∈ st.task_queue := getD_mem _ (by
          cases hq : st.task_queue with
          | nil => exact absurd hq hemp
          | cons a t => simp [hq])
        have hevnn : ev.cb.Nonneg := Hcb ev hevmem
        have hexec := Cb.exec_nonneg hevnn st.entities
        set st0 : ArenaSt E := { st with entities := (ev.cb.exec st.entities).1 }
          with hst0
        set st1 : ArenaSt E := scheduleAll st0 (ev.cb.exec st.entities).2 with hst1
        have hq0 : st0.task_queue = st.task_queue := rfl
        have ht0 : st0.current_time = st.current_time := rfl
        -- the root survives the pushes performed by the callback
        have hroot1 : st1.task_queue.getD 0 (dummyTask E)
            = st.task_queue.getD 0 (dummyTask E) := by
          rw [hst1]
          refine scheduleAll_root _ _ (by rw [hq0]; exact hemp) ?_
          intro p hp
          rw [hq0, ht0, ← hev]
          have := (hexec p hp).1
          omega
        have htime1 : st1.current_time = st.current_time := by
          rw [hst1, scheduleAll_time]
        have hheap1 : IsHeap taskKey (dummyTask E) st1.task_queue := by
          rw [hst1]
          exact scheduleAll_isHeap _ _ (by rw [hq0]; exact Hheap)
        have hcb1 : ∀ t ∈ st1.task_queue, t.cb.Nonneg := by
          rw [hst1]
          exact scheduleAll_nonneg _ _ (by rw [hq0]; exact Hcb)
            (fun p hp => (hexec p hp).2)
        have hsum1 : listSum taskWeight st1.task_queue
            = listSum taskWeight st.task_queue + ev.cb.weight := by
          rw [hst1, scheduleAll_sum, hq0, Cb.exec_weight]
        have hlen1 : st1.task_queue ≠ [] := by
          intro hcontra
          have hl := congrArg List.length hcontra
          rw [hst1, scheduleAll_length, hq0] at hl
          simp only [List.length_nil] at hl
          have hz : st.task_queue.length = 0 := by omega
          exact hemp (List.length_eq_zero.1 hz)
        -- every task in the post-execution queue fires no earlier than `ev`
        have hge1 : ∀ t ∈ st1.task_queue, ev.time ≤ t.time := by
          rw [hst1]
          refine scheduleAll_bound _ _ _ ?_ ?_
          · rw [hq0]
            intro t ht
            exact isHeap_root_le_of_mem Hheap ht
          · intro p hp
            rw [ht0]
            have := (hexec p hp).1
            omega
        -- the pop succeeds and removes exactly `ev`
        rcases hpop : heappop taskKey (dummyTask E) st1.task_queue with _ | ⟨x, q2⟩
        · rw [heappop_eq_none_iff] at hpop
          exact absurd hpop hlen1
        · have hx : x = ev := by
            rw [heappop_root taskKey (dummyTask E) hpop, hroot1, hev]
          have hsum2 := heappop_sum taskKey (dummyTask E) taskWeight hpop
          rw [hx] at hsum2
          have hheap2 := heappop_isHeap taskKey (dummyTask E) hheap1 hpop
          have hmem2 := heappop_forall_mem taskKey (dummyTask E) hpop hcb1
          have hge2 : ∀ t ∈ q2, ev.time ≤ t.time :=
            (heappop_forall_mem taskKey (dummyTask E) hpop hge1).2
          -- apply the induction hypothesis to the shrunken queue
          have hfuel2 : listSum taskWeight q2 < fuel := by
            have : taskWeight ev = 1 + ev.cb.weight := rfl
            omega
          have hchain2 : List.Chain' (fun a b : PyTask E => a.time ≤ b.time)
              (log ++ [ev]) := by
            rw [List.chain'_append]
            refine ⟨Hchain, List.chain'_singleton ev, ?_⟩
            intro a ha b hb
            simp only [List.head?_cons, Option.mem_def, Option.some_inj] at hb
            subst hb
            exact Hbelow a (List.mem_of_mem_getLast? ha) ev hevmem
          have hdue2 : ∀ a ∈ log ++ [ev],
              a.time ≤ ({ st1 with task_queue := q2 } : ArenaSt E).current_time := by
            intro a ha
            have : ({ st1 with task_queue := q2 } : ArenaSt E).current_time
                = st.current_time := htime1
            rw [this]
            rcases List.mem_append.1 ha with h | h
            · exact Hdue a h
            · simp only [List.mem_singleton] at h
              subst h
              exact hfut
          have hbelow2 : ∀ a ∈ log ++ [ev],
              ∀ t ∈ ({ st1 with task_queue := q2 } : ArenaSt E).task_queue,
                a.time ≤ t.time := by
            intro a ha t ht
            rcases List.mem_append.1 ha with h | h
            · exact le_trans (Hbelow a h ev hevmem) (hge2 t ht)
            · simp only [List.mem_singleton] at h
              subst h
              exact hge2 t ht
          dsimp only
          obtain ⟨c1, c2, c3, c4, c5, c6, c7⟩ := ih { st1 with task_queue := q2 }
            (log ++ [ev]) hheap2 hmem2.2 hfuel2 hchain2 hdue2 hbelow2
          have htime1' : ({ st1 with task_queue := q2 } : ArenaSt E).current_time
              = st.current_time := htime1
          refine ⟨c1.trans htime1', c2, c3, ?_, c5, ?_, c7⟩
          · intro t ht
            have hc := c4 t ht
            rwa [htime1'] at hc
          · intro a ha
            have hc := c6 a ha
            rwa [htime1'] at hc

/-- `Arena._process_events()` summary: time is untouched, the heap
invariant and delay discipline survive, no due task remains, and the
executed log is non-decreasing in fire time with every entry due. -/
theorem processEvents_spec (st : ArenaSt E)
    (Hheap : IsHeap taskKey (dummyTask E) st.task_queue)
    (Hcb : ∀ t ∈ st.task_queue, t.cb.Nonneg) :
    (processEvents st).1.current_time = st.current_time ∧
    IsHeap taskKey (dummyTask E) (processEvents st).1.task_queue ∧
    (∀ t ∈ (processEvents st).1.task_queue, t.cb.Nonneg) ∧
    (∀ t ∈ (processEvents st).1.task_queue, st.current_time < t.time) ∧
    List.Chain' (fun a b : PyTask E => a.time ≤ b.time) (processEvents st).2 ∧
    (∀ a ∈ (processEvents st).2, a.time ≤ st.current_time) := by
  have h := processEventsGo_spec (listSum taskWeight st.task_queue + 1) st []
    Hheap Hcb (by omega) List.chain'_nil (by intro a ha; simp at ha)
    (by intro a ha; simp at ha)
  exact ⟨h.1, h.2.1, h.2.2.1, h.2.2.2.1, h.2.2.2.2.1, h.2.2.2.2.2.1⟩

/-! ### `Arena.step` (the adaptive clock loop) -/

variable (calcE : E → Option ℤ) (stepE : E → ℤ → E × List (ℤ × Cb E))

/-- C2 (amended).  Within one scheduler iteration
(`Arena._process_events`), due tasks are executed in non-decreasing
`fire_time` order, and every executed task is due; but two due tasks with
equal `fire_time` are executed in binary-heap extraction order, which is
*not* in general their scheduling order (see
`task_ordering_tie_counterexample`). -/
theorem task_ordering_nondecreasing
    (E : Type) (st : ArenaSt E)
    (Hheap : IsHeap taskKey (dummyTask E) st.task_queue)
    (Hcb : ∀ t ∈ st.task_queue, t.cb.Nonneg) :
    List.Chain' (fun a b : PyTask E => a.time ≤ b.time) (processEvents st).2 ∧
    ∀ a ∈ (processEvents st).2, a.time ≤ st.current_time := by
  obtain ⟨_, _, _, _, h5, h6⟩ := processEvents_spec st Hheap Hcb
  exact ⟨h5, h6⟩

/-- Witness for C2 at a concrete input: three tasks scheduled in the order
tag 0 at fire time 2, tag 1 at fire time 2, tag 2 at fire time 1, all due
at `current_time = 2`, are executed with non-decreasing fire times
`[1, 2, 2]`. -/
theorem task_ordering_nondecreasing_witness :
    List.Chain' (fun a b : PyTask Unit => a.time ≤ b.time)
      (processEvents
        { task_queue :=
            heappush taskKey (dummyTask Unit)
              (heappush taskKey (dummyTask Unit)
                (heappush taskKey (dummyTask Unit) [] ⟨2, 0, Cb.noop⟩)
                ⟨2, 1, Cb.noop⟩)
              ⟨1, 2, Cb.noop⟩,
          current_time := 2, entities := [], next_tag := 3 }).2 := by
  have hnil : IsHeap taskKey (dummyTask Unit) [] := by
    intro j hj hjl
    simp at hjl
  have hh := heappush_isHeap taskKey (dummyTask Unit)
    (heappush_isHeap taskKey (dummyTask Unit)
      (heappush_isHeap taskKey (dummyTask Unit) hnil ⟨2, 0, Cb.noop⟩)
      ⟨2, 1, Cb.noop⟩) ⟨1, 2, Cb.noop⟩
  have hcb : ∀ t ∈ heappush taskKey (dummyTask Unit)
      (heappush taskKey (dummyTask Unit)
        (heappush taskKey (dummyTask Unit) [] ⟨2, 0, Cb.noop⟩) ⟨2, 1, Cb.noop⟩)
      ⟨1, 2, Cb.noop⟩, (t.cb : Cb Unit).Nonneg := by
    refine heappush_forall_mem taskKey (dummyTask Unit) _ _ ?_ trivial
    refine heappush_forall_mem taskKey (dummyTask Unit) _ _ ?_ trivial
    refine heappush_forall_mem taskKey (dummyTask Unit) _ _ ?_ trivial
    intro t ht
    simp at ht
  exact (task_ordering_nondecreasing Unit _ hh hcb).1

set_option maxRecDepth 10000 in
set_option maxHeartbeats 1000000 in
/-- C2 counterexample to the tie-breaking clause as stated: schedule, in
this order, task tag 0 with `fire_time = 2`, task tag 1 with
`fire_time = 2`, and task tag 2 with `fire_time = 1`; at
`current_time = 2` all three are due.  `_process_events` executes them
with tags `[2, 1, 0]` (fire times `[1, 2, 2]`): the two tasks of equal
fire time 2 run in the order tag 1 then tag 0 — the *reverse* of their
scheduling order, refuting "ties are executed in the order in which they
were scheduled". -/
theorem task_ordering_tie_counterexample :
    ((processEvents
        { task_queue :=
            heappush taskKey (dummyTask Unit)
              (heappush taskKey (dummyTask Unit)
                (heappush taskKey (dummyTask Unit) [] ⟨2, 0, Cb.noop⟩)
                ⟨2, 1, Cb.noop⟩)
              ⟨1, 2, Cb.noop⟩,
          current_time := 2, entities := [], next_tag := 3 }).2.map PyTask.tag
      = [2, 1, 0]) ∧
    ((processEvents
        { task_queue :=
            heappush taskKey (dummyTask Unit)
              (heappush taskKey (dummyTask Unit)
                (heappush taskKey (dummyTask Unit) [] ⟨2, 0, Cb.noop⟩)
                ⟨2, 1, Cb.noop⟩)
              ⟨1, 2, Cb.noop⟩,
          current_time := 2, entities := [], next_tag := 3 }).2.map PyTask.time
      = [1, 2, 2]) := by
  have h1 : heappush taskKey (dummyTask Unit) [] ⟨2, 0, Cb.noop⟩
      = [⟨2, 0, Cb.noop⟩] := by
    simp [heappush, siftdown, taskKey, dummyTask]
  have h2 : heappush taskKey (dummyTask Unit) [⟨2, 0, Cb.noop⟩] ⟨2, 1, Cb.noop⟩
      = [⟨2, 0, Cb.noop⟩, ⟨2, 1, Cb.noop⟩] := by
    simp [heappush, siftdown, taskKey, dummyTask]
  have h3 : heappush taskKey (dummyTask Unit)
      [⟨2, 0, Cb.noop⟩, ⟨2, 1, Cb.noop⟩] ⟨1, 2, Cb.noop⟩
      = [⟨1, 2, Cb.noop⟩, ⟨2, 1, Cb.noop⟩, ⟨2, 0, Cb.noop⟩] := by
    simp [heappush, siftdown, taskKey, dummyTask]
  rw [h1, h2, h3]
  have hrun : (processEvents
      { task_queue := [(⟨1, 2, Cb.noop⟩ : PyTask Unit), ⟨2, 1, Cb.noop⟩,
          ⟨2, 0, Cb.noop⟩],
        current_time := 2, entities := [], next_tag := 3 }).2
      = [⟨1, 2, Cb.noop⟩, ⟨2, 1, Cb.noop⟩, ⟨2, 0, Cb.noop⟩] := by
    simp [processEvents, processEventsGo, heappop, siftup, siftupLoop, siftdown,
      scheduleAll, taskKey, dummyTask, Cb.exec, listSum, taskWeight, Cb.weight]
  rw [hrun]
  constructor <;> rfl

/-! ## `common.py`: `ActionID` and constants

`ActionID` is an `IntEnum`.  We embed the members that the repository's
job module (`job/samurai.py`) and the claims exercise: the general and
physical-DPS role actions plus the full Samurai kit.  `MELEE = 7` in the
source is a Python enum *alias* of `ATTACK = 7` (declared first), so
`ActionID.MELEE` *is* the member named `ATTACK`; `getattrActionID` maps
the alias name accordingly.  The remaining members play no role in any
claim and are omitted from the embedding. -/

inductive ActionID where
  | NONE | ATTACK | SPRINT | SHOT | POTION | FOOD
  | SECOND_WIND | BLOOD_BATH | TRUE_NORTH | ARMS_LENGTH | FEINT | LEG_SWEEP
  | HAKAZE | GYOFU | JINPU | SHIFU | YUKIKAZE | GEKKO | KASHA | MANGETSU
  | OKA | ENPI | MIDARE_SETSUGEKKA | TENKA_GOKEN | HIGANBANA
  | HISSATSU_SHINTEN | HISSATSU_GYOTEN | HISSATSU_YATEN | HAGAKURE
  | MEDITATE | THIRD_EYE | MEIKYO_SHISUI | KAESHI_SETSUGEKKA
  | HISSATSU_SENEI | IKISHOTEN | SHOHA | KAESHI_GOKEN | FUKO
  | OGI_NAMIKIRI | KAESHI_NAMIKIRI | ZANSHIN | TENDO_GOKEN
  | TENDO_SETSUGEKKA | TENDO_KAESHI_GOKEN | TENDO_KAESHI_SETSUGEKKA
  deriving DecidableEq, Repr

/-- The enum member's integer value (`common.py`). -/
def ActionID.val : ActionID → ℤ
  | .NONE => 0 | .ATTACK => 7 | .SPRINT => 3 | .SHOT => 8
  | .POTION => 846 | .FOOD => 847
  | .SECOND_WIND => 7541 | .BLOOD_BATH => 7542 | .TRUE_NORTH => 7546
  | .ARMS_LENGTH => 7548 | .FEINT => 7549 | .LEG_SWEEP => 7863
  | .HAKAZE => 7477 | .GYOFU => 36963 | .JINPU => 7478 | .SHIFU => 7479
  | .YUKIKAZE => 7480 | .GEKKO => 7481 | .KASHA => 7482 | .MANGETSU => 7484
  | .OKA => 7485 | .ENPI => 7486 | .MIDARE_SETSUGEKKA => 7487
  | .TENKA_GOKEN => 7488 | .HIGANBANA => 7489 | .HISSATSU_SHINTEN => 7490
  | .HISSATSU_GYOTEN => 7492 | .HISSATSU_YATEN => 7493 | .HAGAKURE => 7495
  | .MEDITATE => 7497 | .THIRD_EYE => 7498 | .MEIKYO_SHISUI => 7499
  | .KAESHI_SETSUGEKKA => 16486 | .HISSATSU_SENEI => 16481
  | .IKISHOTEN => 16482 | .SHOHA => 16487 | .KAESHI_GOKEN => 16485
  | .FUKO => 25780 | .OGI_NAMIKIRI => 25781 | .KAESHI_NAMIKIRI => 25782
  | .ZANSHIN => 36964 | .TENDO_GOKEN => 36965 | .TENDO_SETSUGEKKA => 36966
  | .TENDO_KAESHI_GOKEN => 36967 | .TENDO_KAESHI_SETSUGEKKA => 36968

/-- The member's canonical `.name` (for an alias such as `MELEE`, Python
reports the canonical member's name, i.e. `"ATTACK"`). -/
def ActionID.pyName : ActionID → String
  | .NONE => "NONE" | .ATTACK => "ATTACK" | .SPRINT => "SPRINT"
  | .SHOT => "SHOT" | .POTION => "POTION" | .FOOD => "FOOD"
  | .SECOND_WIND => "SECOND_WIND" | .BLOOD_BATH => "BLOOD_BATH"
  | .TRUE_NORTH => "TRUE_NORTH" | .ARMS_LENGTH => "ARMS_LENGTH"
  | .FEINT => "FEINT" | .LEG_SWEEP => "LEG_SWEEP"
  | .HAKAZE => "HAKAZE" | .GYOFU => "GYOFU" | .JINPU => "JINPU"
  | .SHIFU => "SHIFU" | .YUKIKAZE => "YUKIKAZE" | .GEKKO => "GEKKO"
  | .KASHA => "KASHA" | .MANGETSU => "MANGETSU" | .OKA => "OKA"
  | .ENPI => "ENPI" | .MIDARE_SETSUGEKKA => "MIDARE_SETSUGEKKA"
  | .TENKA_GOKEN => "TENKA_GOKEN" | .HIGANBANA => "HIGANBANA"
  | .HISSATSU_SHINTEN => "HISSATSU_SHINTEN"
  | .HISSATSU_GYOTEN => "HISSATSU_GYOTEN"
  | .HISSATSU_YATEN => "HISSATSU_YATEN" | .HAGAKURE => "HAGAKURE"
  | .MEDITATE => "MEDITATE" | .THIRD_EYE => "THIRD_EYE"
  | .MEIKYO_SHISUI => "MEIKYO_SHISUI"
  | .KAESHI_SETSUGEKKA => "KAESHI_SETSUGEKKA"
  | .HISSATSU_SENEI => "HISSATSU_SENEI" | .IKISHOTEN => "IKISHOTEN"
  | .SHOHA => "SHOHA" | .KAESHI_GOKEN => "KAESHI_GOKEN" | .FUKO => "FUKO"
  | .OGI_NAMIKIRI => "OGI_NAMIKIRI" | .KAESHI_NAMIKIRI => "KAESHI_NAMIKIRI"
  | .ZANSHIN => "ZANSHIN" | .TENDO_GOKEN => "TENDO_GOKEN"
  | .TENDO_SETSUGEKKA => "TENDO_SETSUGEKKA"
  | .TENDO_KAESHI_GOKEN => "TENDO_KAESHI_GOKEN"
  | .TENDO_KAESHI_SETSUGEKKA => "TENDO_KAESHI_SETSUGEKKA"

/-- `getattr(ActionID, name, None)` over the embedded members, including
the alias `MELEE` (which resolves to the `ATTACK` member). -/
def getattrActionID (name : String) : Option ActionID :=
  if name = "NONE" then some .NONE
  else if name = "ATTACK" then some .ATTACK
  else if name = "MELEE" then some .ATTACK
  else if name = "SPRINT" then some .SPRINT
  else if name = "SHOT" then some .SHOT
  else if name = "POTION" then some .POTION
  else if name = "FOOD" then some .FOOD
  else if name = "SECOND_WIND" then some .SECOND_WIND
  else if name = "BLOOD_BATH" then some .BLOOD_BATH
  else if name = "TRUE_NORTH" then some .TRUE_NORTH
  else if name = "ARMS_LENGTH" then some .ARMS_LENGTH
  else if name = "FEINT" then some .FEINT
  else if name = "LEG_SWEEP" then some .LEG_SWEEP
  else if name = "HAKAZE" then some .HAKAZE
  else if name = "GYOFU" then some .GYOFU
  else if name = "JINPU" then some .JINPU
  else if name = "SHIFU" then some .SHIFU
  else if name = "YUKIKAZE" then some .YUKIKAZE
  else if name = "GEKKO" then some .GEKKO
  else if name = "KASHA" then some .KASHA
  else if name = "MANGETSU" then some .MANGETSU
  else if name = "OKA" then some .OKA
  else if name = "ENPI" then some .ENPI
  else if name = "MIDARE_SETSUGEKKA" then some .MIDARE_SETSUGEKKA
  else if name = "TENKA_GOKEN" then some .TENKA_GOKEN
  else if name = "HIGANBANA" then some .HIGANBANA
  else if name = "HISSATSU_SHINTEN" then some .HISSATSU_SHINTEN
  else if name = "HISSATSU_GYOTEN" then some .HISSATSU_GYOTEN
  else if name = "HISSATSU_YATEN" then some .HISSATSU_YATEN
  else if name = "HAGAKURE" then some .HAGAKURE
  else if name = "MEDITATE" then some .MEDITATE
  else if name = "THIRD_EYE" then some .THIRD_EYE
  else if name = "MEIKYO_SHISUI" then some .MEIKYO_SHISUI
  else if name = "KAESHI_SETSUGEKKA" then some .KAESHI_SETSUGEKKA
  else if name = "HISSATSU_SENEI" then some .HISSATSU_SENEI
  else if name = "IKISHOTEN" then some .IKISHOTEN
  else if name = "SHOHA" then some .SHOHA
  else if name = "KAESHI_GOKEN" then some .KAESHI_GOKEN
  else if name = "FUKO" then some .FUKO
  else if name = "OGI_NAMIKIRI" then some .OGI_NAMIKIRI
  else if name = "KAESHI_NAMIKIRI" then some .KAESHI_NAMIKIRI
  else if name = "ZANSHIN" then some .ZANSHIN
  else if name = "TENDO_GOKEN" then some .TENDO_GOKEN
  else if name = "TENDO_SETSUGEKKA" then some .TENDO_SETSUGEKKA
  else if name = "TENDO_KAESHI_GOKEN" then some .TENDO_KAESHI_GOKEN
  else if name = "TENDO_KAESHI_SETSUGEKKA" then some .TENDO_KAESHI_SETSUGEKKA
  else none

theorem getattr_pyName (a : ActionID) : getattrActionID a.pyName = some a := by
  cases a <;> rfl

/-- `RECAST_GROUP_GCD = 57` (`common.py`). -/
def RECAST_GROUP_GCD : ℤ := 57

/-- `ANIMATION_LOCK = 700` (`common.py`). -/
def ANIMATION_LOCK : ℚ := 700

/-! ## `core.py`: `RecastDetail`, `PvEAction` and `ActionManager`

Numbers that flow through Python's true division (`/`) or float
multiplication are modelled as `ℚ`.  `int(x)` (truncation towards zero)
is `pyInt`. -/

/-- Python `int(q)`: truncation of a rational towards zero
(`Int./` in Lean 4 is T-division, matching CPython). -/
def pyInt (q : ℚ) : ℤ := q.num / (q.den : ℤ)

/-- `RecastDetail.__init__`: one cooldown-group slot. -/
structure RecastDetail where
  action_id : ActionID
  time_elapsed : ℚ
  total : ℚ
  deriving DecidableEq, Repr

/-- A fresh `RecastDetail()` (no active cooldown). -/
def RecastDetail.initial : RecastDetail := ⟨ActionID.NONE, 0, 0⟩

/-- `RecastDetail.remaining = total - time_elapsed`. -/
def RecastDetail.remaining (rd : RecastDetail) : ℚ := rd.total - rd.time_elapsed

/-- `RecastDetail.is_active = total > 0 and 0 <= time_elapsed < total`. -/
def RecastDetail.is_active (rd : RecastDetail) : Bool :=
  decide (0 < rd.total) && decide (0 ≤ rd.time_elapsed) &&
    decide (rd.time_elapsed < rd.total)

/-- `RecastDetail.is_charge_exhausted(max_charges)`: for multi-charge
groups, `total / max_charges >= time_elapsed` (true division); otherwise
`is_active`. -/
def RecastDetail.is_charge_exhausted (rd : RecastDetail) (max_charges : ℤ) : Bool :=
  if 1 < max_charges then decide (rd.time_elapsed ≤ rd.total / (max_charges : ℚ))
  else rd.is_active

/-- `RecastDetail.step(delta_time)`: advance `time_elapsed`, auto-reset to
the idle `(0, 0)` state once `time_elapsed >= total`. -/
def RecastDetail.step (rd : RecastDetail) (delta_time : ℚ) : RecastDetail :=
  let rd := { rd with time_elapsed := rd.time_elapsed + delta_time }
  if rd.total ≤ rd.time_elapsed then { rd with time_elapsed := 0, total := 0 }
  else rd

/-- `PvEAction.__init__`: the timing parameters of an action (`can_use` /
`execute` belong to the job modules and play no role in these claims). -/
structure PvEAction where
  action_id : ActionID
  cast_time : ℚ
  recast_time : ℚ
  cooldown_group : ℤ
  additional_recast_time : ℚ
  additional_cooldown_group : ℤ
  max_charges : ℤ
  animation_lock : ℚ
  deriving DecidableEq, Repr

/-- `ActionManager.__init__`.  The owner (`BattleCharacter`) is reached
only through `owner.status_manager.get_speed_multiplier(...)` in the
methods modelled here; those two query results are carried as the fields
`speed_cast` / `speed_recast` (1 when no speed-modifying status is
active).  `casting_apply_callback` records whether the `Optional
[Callable]` is set; invocations are counted by `step`'s second result. -/
structure ActionManager where
  actions : List PvEAction
  cooldowns : List (ℤ × RecastDetail)
  animation_lock : ℚ
  casting_action_id : ActionID
  casting_time : ℚ
  casting_time_max : ℚ
  casting_apply_callback : Bool
  last_combo_action_id : ActionID
  last_combo_time : ℚ
  last_action_id : ActionID
  time_since_last_action : ℚ
  speed_cast : ℚ
  speed_recast : ℚ
  deriving DecidableEq, Repr

/-- A fresh `ActionManager(owner)` for an owner with the given speed
multipliers. -/
def ActionManager.initial (speed_cast speed_recast : ℚ) : ActionManager :=
  { actions := [], cooldowns := [], animation_lock := 0,
    casting_action_id := ActionID.NONE, casting_time := 0,
    casting_time_max := 0, casting_apply_callback := false,
    last_combo_action_id := ActionID.NONE, last_combo_time := 0,
    last_action_id := ActionID.NONE, time_since_last_action := 0,
    speed_cast := speed_cast, speed_recast := speed_recast }

/-- `self.cooldowns[group]` lookup (`group in self.cooldowns` guards every
access).  The `Dict[int, RecastDetail]` is modelled as an association
list; the claims never register the same group twice. -/
def lookupGroup (cooldowns : List (ℤ × RecastDetail)) (g : ℤ) :
    Option RecastDetail :=
  (cooldowns.find? (fun p => p.1 == g)).map Prod.snd

/-- In-place mutation of the `RecastDetail` object stored under a group
key (Python mutates the shared object). -/
def updateGroup (cooldowns : List (ℤ × RecastDetail)) (g : ℤ)
    (f : RecastDetail → RecastDetail) : List (ℤ × RecastDetail) :=
  cooldowns.map (fun p => if p.1 == g then (p.1, f p.2) else p)

/-- `ActionManager.register_action(action)`: record the action and lazily
create the `RecastDetail` slots for its (positive) cooldown groups. -/
def ActionManager.register_action (am : ActionManager) (action : PvEAction) :
    ActionManager :=
  let am := { am with actions := am.actions ++ [action] }
  let am :=
    if 0 < action.cooldown_group ∧
        lookupGroup am.cooldowns action.cooldown_group = none then
      { am with cooldowns := am.cooldowns ++
          [(action.cooldown_group,
            { RecastDetail.initial with action_id := action.action_id })] }
    else am
  if 0 < action.additional_cooldown_group ∧
      lookupGroup am.cooldowns action.additional_cooldown_group = none then
    { am with cooldowns := am.cooldowns ++
        [(action.additional_cooldown_group,
          { RecastDetail.initial with action_id := action.action_id })] }
  else am

/-- `ActionManager.get_action`. -/
def ActionManager.get_action (am : ActionManager) (aid : ActionID) :
    Option PvEAction :=
  am.actions.find? (fun a => a.action_id == aid)

/-- `ActionManager.get_recast_group`. -/
def ActionManager.get_recast_group (am : ActionManager) (aid : ActionID) : ℤ :=
  match am.get_action aid with
  | some a => a.cooldown_group
  | none => 0

/-- `ActionManager.get_additional_recast_group`. -/
def ActionManager.get_additional_recast_group (am : ActionManager)
    (aid : ActionID) : ℤ :=
  match am.get_action aid with
  | some a => a.additional_cooldown_group
  | none => 0

/-- `ActionManager.get_recast_detail`. -/
def ActionManager.get_recast_detail (am : ActionManager) (aid : ActionID) :
    Option RecastDetail :=
  lookupGroup am.cooldowns (am.get_recast_group aid)

/-- `ActionManager.get_additional_recast_detail`: guarded by the *truthiness*
of the group id (`if add_recast_group and add_recast_group in self.cooldowns`). -/
def ActionManager.get_additional_recast_detail (am : ActionManager)
    (aid : ActionID) : Option RecastDetail :=
  if am.get_additional_recast_group aid ≠ 0 then
    lookupGroup am.cooldowns (am.get_additional_recast_group aid)
  else none

/-- `ActionManager.get_max_charges` (1 for unregistered actions). -/
def ActionManager.get_max_charges (am : ActionManager) (aid : ActionID) : ℤ :=
  match am.get_action aid with
  | some a => a.max_charges
  | none => 1

/-- `ActionManager.get_adjusted_recast_time`: the GCD group is scaled by
the owner's RECAST speed multiplier and truncated down to 10 ms. -/
def ActionManager.get_adjusted_recast_time (am : ActionManager)
    (aid : ActionID) : ℚ :=
  match am.get_action aid with
  | none => 0
  | some a =>
    if a.cooldown_group = RECAST_GROUP_GCD then
      ((⌊a.recast_time * am.speed_recast / 10⌋ * 10 : ℤ) : ℚ)
    else a.recast_time

/-- `ActionManager.get_adjusted_additional_recast_time`: mirrors the source,
including its `FIXME` — it reads `action.recast_time`, not
`action.additional_recast_time`. -/
def ActionManager.get_adjusted_additional_recast_time (am : ActionManager)
    (aid : ActionID) : ℚ :=
  match am.get_action aid with
  | none => 0
  | some a =>
    if a.additional_cooldown_group = RECAST_GROUP_GCD then
      ((⌊a.recast_time * am.speed_recast / 10⌋ * 10 : ℤ) : ℚ)
    else a.recast_time

/-- `ActionManager.is_action_offcooldown(action_id, tolerance)`. -/
def ActionManager.is_action_offcooldown (am : ActionManager) (aid : ActionID)
    (tolerance : Option ℚ) : Bool :=
  match am.get_recast_detail aid with
  | none => false
  | some rd =>
    let time_tolerance : ℚ :=
      match tolerance with
      | some t => if 0 ≤ t then t else 0
      | none => 0
    let addBlock : Bool :=
      match am.get_additional_recast_detail aid with
      | some ard => ard.is_active && decide (time_tolerance < ard.remaining)
      | none => false
    if addBlock then false
    else if rd.is_active then
      if rd.time_elapsed + time_tolerance
          < rd.total / (am.get_max_charges aid : ℚ) then false
      else true
    else true

/-- `ActionManager.get_action_cooldown_remaining` (returns Python `None`
when neither group is active — the annotation says `int`, the code can
fall through). -/
def ActionManager.get_action_cooldown_remaining (am : ActionManager)
    (aid : ActionID) : Option ℚ :=
  match am.get_recast_detail aid with
  | none => some 0
  | some rd =>
    let remaining : Option ℚ := none
    let remaining : Option ℚ :=
      match am.get_additional_recast_detail aid with
      | some ard =>
        if ard.is_active ∧ 0 ≤ ard.remaining then some ard.remaining
        else remaining
      | none => remaining
    if rd.is_active then
      let next_charge_remain : ℚ :=
        max 0 ((pyInt (rd.total / (am.get_max_charges aid : ℚ)) : ℚ)
          - rd.time_elapsed)
      match remaining with
      | none => some next_charge_remain
      | some r => if next_charge_remain < r then some next_charge_remain
                  else some r
    else remaining

/-- `ActionManager.get_recast_time_elapsed`. -/
def ActionManager.get_recast_time_elapsed (am : ActionManager)
    (aid : ActionID) : ℚ :=
  match am.get_recast_detail aid with
  | none => 0
  | some rd => rd.time_elapsed

/-- `ActionManager.start_cooldown(action_id)`: single-charge groups reset
`(0, adjusted_recast)`, multi-charge groups bank charges by *subtracting*
one charge's worth from `time_elapsed` (clamped at 0) unless the group is
idle or its total shrank, in which case one full charge goes on cooldown
out of `max_charges * adjusted_recast`. -/
def ActionManager.start_cooldown (am : ActionManager) (aid : ActionID) :
    ActionManager :=
  match am.get_recast_detail aid with
  | none => am
  | some rd =>
    let addjusted_recast_time := am.get_adjusted_recast_time aid
    let max_charges := am.get_max_charges aid
    let rd' :=
      if max_charges ≤ 1 then
        { rd with time_elapsed := 0, total := addjusted_recast_time }
      else
        let adjusted_total := (max_charges : ℚ) * addjusted_recast_time
        if rd.is_active = false ∨ adjusted_total < rd.total then
          { rd with time_elapsed := adjusted_total - addjusted_recast_time,
                    total := adjusted_total }
        else
          let te := rd.time_elapsed - addjusted_recast_time
          { rd with time_elapsed := if te < 0 then 0 else te }
    let g := am.get_recast_group aid
    let am := { am with cooldowns := updateGroup am.cooldowns g (fun _ => rd') }
    let am :=
      match am.get_additional_recast_detail aid with
      | none => am
      | some _ =>
        let addjusted_additional := am.get_adjusted_additional_recast_time aid
        { am with cooldowns :=
            (updateGroup am.cooldowns (am.get_additional_recast_group aid)
              (fun ard =>
                { ard with time_elapsed := 0, total := addjusted_additional })) }
    { am with cooldowns :=
        updateGroup am.cooldowns g (fun r => { r with action_id := aid }) }

/-- `ActionManager.is_casting`. -/
def ActionManager.is_casting (am : ActionManager) : Bool :=
  decide (am.casting_action_id ≠ ActionID.NONE) &&
    decide (0 < am.casting_time_max) &&
    decide (0 ≤ am.casting_time) && decide (am.casting_time < am.casting_time_max)

/-- `ActionManager._update_action_cast(step_size)`; the second component
counts invocations of `casting_apply_callback` (0 or 1). -/
def ActionManager.update_action_cast (am : ActionManager) (step_size : ℚ) :
    ActionManager × ℕ :=
  if am.is_casting then
    let ct := min (am.casting_time + step_size) am.casting_time_max
    let remaining_cast_time := am.casting_time_max - ct
    let fired : ℕ :=
      if remaining_cast_time ≤ 400 ∧ am.casting_apply_callback = true then 1
      else 0
    let cb : Bool :=
      if remaining_cast_time ≤ 400 ∧ am.casting_apply_callback = true then false
      else am.casting_apply_callback
    let am := { am with casting_time := ct, casting_apply_callback := cb }
    if remaining_cast_time ≤ 0 then
      ({ am with casting_action_id := ActionID.NONE, casting_time := 0,
                 casting_time_max := 0 }, fired)
    else (am, fired)
  else
    ({ am with casting_action_id := ActionID.NONE, casting_time := 0,
               casting_time_max := 0, casting_apply_callback := false }, 0)

/-- `ActionManager._update_combo_state(step_size)`. -/
def ActionManager.update_combo_state (am : ActionManager) (step_size : ℚ) :
    ActionManager :=
  if am.last_combo_action_id ≠ ActionID.NONE then
    let lct := max 0 (am.last_combo_time - step_size)
    if lct ≤ 0 then
      { am with last_combo_action_id := ActionID.NONE, last_combo_time := 0 }
    else { am with last_combo_time := lct }
  else { am with last_combo_time := 0 }

/-- `ActionManager.step(step_size)`; the second component counts cast-apply
callback invocations performed during this step. -/
def ActionManager.step (am : ActionManager) (step_size : ℚ) :
    ActionManager × ℕ :=
  let am := { am with
    time_since_last_action := am.time_since_last_action + step_size,
    animation_lock := max 0 (am.animation_lock - step_size) }
  let r := am.update_action_cast step_size
  let am := r.1.update_combo_state step_size
  ({ am with cooldowns := am.cooldowns.map (fun p => (p.1, p.2.step step_size)) },
    r.2)

/-- `ActionManager.start_casting(action_id, cast_time, on_apply)`;
`on_apply : Bool` records whether a callback was supplied. -/
def ActionManager.start_casting (am : ActionManager) (aid : ActionID)
    (cast_time : ℚ) (on_apply : Bool) : ActionManager :=
  { am with casting_action_id := aid, casting_time := 0,
            casting_time_max := cast_time, casting_apply_callback := on_apply }

/-- A sequence of `ActionManager.step` calls, collecting the per-step
callback invocation counts. -/
def ActionManager.runSteps (am : ActionManager) : List ℚ → ActionManager × List ℕ
  | [] => (am, [])
  | Δ :: rest =>
    let r := am.step Δ
    let rr := r.1.runSteps rest
    (rr.1, r.2 :: rr.2)

/-! ### C3: the charge-banking scenario

An action with `max_charges = 2`, `recast_time = 5000` ms, a non-GCD
cooldown group (so no speed modifier applies), used at `t = 0`, stepped
100 ms, used again at `t = 100`. -/

/-- The scenario action of C3. -/
def c3Action : PvEAction :=
  { action_id := ActionID.TRUE_NORTH, cast_time := 0, recast_time := 5000,
    cooldown_group := 10, additional_recast_time := 0,
    additional_cooldown_group := 0, max_charges := 2,
    animation_lock := ANIMATION_LOCK }

/-- The manager state immediately after the second use at `t = 100`. -/
def c3AfterSecondUse : ActionManager :=
  ((((ActionManager.initial 1 1).register_action c3Action).start_cooldown
      ActionID.TRUE_NORTH).step 100).1.start_cooldown ActionID.TRUE_NORTH

/-- Helper: the fully evaluated manager state of the C3 scenario. -/
theorem c3AfterSecondUse_eq :
    c3AfterSecondUse = { (ActionManager.initial 1 1) with
      actions := [c3Action],
      cooldowns := [(10, ⟨ActionID.TRUE_NORTH, 100, 10000⟩)],
      time_since_last_action := 100 } := by
  norm_num [c3AfterSecondUse, c3Action, ActionManager.initial,
    ActionManager.register_action, ActionManager.start_cooldown,
    ActionManager.step, ActionManager.update_action_cast,
    ActionManager.update_combo_state, ActionManager.is_casting,
    ActionManager.get_recast_detail, ActionManager.get_recast_group,
    ActionManager.get_additional_recast_detail,
    ActionManager.get_additional_recast_group,
    ActionManager.get_action, ActionManager.get_max_charges,
    ActionManager.get_adjusted_recast_time,
    ActionManager.get_adjusted_additional_recast_time,
    lookupGroup, updateGroup, RecastDetail.initial, RecastDetail.is_active,
    RecastDetail.step, RecastDetail.remaining, RECAST_GROUP_GCD,
    List.find?, ANIMATION_LOCK]

/-- C3 counterexample: immediately after the second use the cooldown
group's `time_elapsed` is `100`, not `4900` as the claim states.  (The
first use sets `(time_elapsed, total) = (5000, 10000)`; 100 ms later it is
`(5100, 10000)`; the second use *subtracts* one charge's recast,
`5100 - 5000 = 100`.  `4900` is the group's *remaining* time to the next
charge, `5000 - 100`, not its `time_elapsed`.) -/
theorem charge_banking_counterexample :
    c3AfterSecondUse.get_recast_time_elapsed ActionID.TRUE_NORTH = 100 ∧
    (100 : ℚ) ≠ 4900 := by
  rw [c3AfterSecondUse_eq]
  refine ⟨?_, by norm_num⟩
  norm_num [ActionManager.get_recast_time_elapsed,
    ActionManager.get_recast_detail, ActionManager.get_recast_group,
    ActionManager.get_action, ActionManager.initial, c3Action, lookupGroup,
    List.find?]

/-- C3 (amended).  After the second use the group holds
`time_elapsed = 100` out of `total = 10000`, so the time remaining until
the next charge is `5000 - 100 = 4900` (`get_action_cooldown_remaining`),
and the group returns to the idle state — both charges available again —
after a further step of `Δ` ms exactly when `Δ ≥ 9900`, i.e. exactly at
`t = 100 + 9900 = 10000`. -/
theorem charge_banking_amended :
    c3AfterSecondUse.get_recast_time_elapsed ActionID.TRUE_NORTH = 100 ∧
    c3AfterSecondUse.get_action_cooldown_remaining ActionID.TRUE_NORTH
      = some 4900 ∧
    ∀ Δ : ℚ, 0 ≤ Δ →
      ((((c3AfterSecondUse.step Δ).1.get_recast_detail
          ActionID.TRUE_NORTH).map RecastDetail.total = some 0) ↔ 9900 ≤ Δ) := by
  rw [c3AfterSecondUse_eq]
  refine ⟨?_, ?_, ?_⟩
  · norm_num [ActionManager.get_recast_time_elapsed,
      ActionManager.get_recast_detail, ActionManager.get_recast_group,
      ActionManager.get_action, ActionManager.initial, c3Action, lookupGroup,
      List.find?]
  · norm_num [ActionManager.get_action_cooldown_remaining,
      ActionManager.get_recast_detail, ActionManager.get_recast_group,
      ActionManager.get_additional_recast_detail,
      ActionManager.get_additional_recast_group,
      ActionManager.get_action, ActionManager.get_max_charges,
      ActionManager.initial, c3Action, lookupGroup, List.find?,
      RecastDetail.is_active, RecastDetail.remaining, pyInt]
  · intro Δ hΔ
    by_cases h : (9900 : ℚ) ≤ Δ
    · have h' : (10000 : ℚ) ≤ 100 + Δ := by linarith
      simp only [ActionManager.step, ActionManager.update_action_cast,
        ActionManager.update_combo_state, ActionManager.is_casting,
        ActionManager.get_recast_detail, ActionManager.get_recast_group,
        ActionManager.get_action, ActionManager.initial, c3Action,
        lookupGroup, updateGroup, RecastDetail.step, List.find?, List.map]
      norm_num [h', h]
    · have h' : ¬ (10000 : ℚ) ≤ 100 + Δ := by
        intro hc
        exact h (by linarith)
      simp only [ActionManager.step, ActionManager.update_action_cast,
        ActionManager.update_combo_state, ActionManager.is_casting,
        ActionManager.get_recast_detail, ActionManager.get_recast_group,
        ActionManager.get_action, ActionManager.initial, c3Action,
        lookupGroup, updateGroup, RecastDetail.step, List.find?, List.map]
      norm_num [h', h]

/-- Witness for the `∀ Δ` clause of the amended C3 theorem at `Δ = 9900`:
both charges are available exactly at `t = 10000`. -/
theorem charge_banking_amended_witness :
    ((c3AfterSecondUse.step 9900).1.get_recast_detail
        ActionID.TRUE_NORTH).map RecastDetail.total = some 0 :=
  ((charge_banking_amended.2.2 9900 (by norm_num)).2 (by norm_num))

/-! ### C4: the off-cooldown predicate -/

/-- C4.  For a registered action whose primary cooldown group exists,
and a non-negative tolerance:
`is_action_offcooldown` returns `true` iff the primary group has an
available charge — the group is not active, or `time_elapsed + tolerance`
has reached the first-charge boundary `total / max_charges` — and, when
the action has a secondary cooldown group, that group's remaining time
does not exceed the tolerance.  (`time_elapsed ≥ 0` on the secondary
group is an invariant of every state the manager produces: details start
at 0, `step` resets at the total, `start_cooldown` clamps at 0.) -/
theorem is_action_offcooldown_spec
    (am : ActionManager) (aid : ActionID) (tol : ℚ)
    (action : PvEAction) (rd : RecastDetail)
    (hA : am.get_action aid = some action)
    (hRd : am.get_recast_detail aid = some rd)
    (htol : 0 ≤ tol)
    (hAdd : ∀ ard, am.get_additional_recast_detail aid = some ard →
      0 ≤ ard.time_elapsed) :
    am.is_action_offcooldown aid (some tol) = true ↔
      ((rd.is_active = false ∨
          rd.total / (action.max_charges : ℚ) ≤ rd.time_elapsed + tol) ∧
        (∀ ard, am.get_additional_recast_detail aid = some ard →
          ard.remaining ≤ tol)) := by
  have hmc : am.get_max_charges aid = action.max_charges := by
    unfold ActionManager.get_max_charges
    rw [hA]
  unfold ActionManager.is_action_offcooldown
  rw [hRd]
  dsimp only
  rw [if_pos htol, hmc]
  rcases hard : am.get_additional_recast_detail aid with _ | ard
  · -- no secondary cooldown group
    simp only [hard]
    by_cases hact : rd.is_active
    · rw [if_neg (by simp), if_pos hact]
      by_cases hlt : rd.time_elapsed + tol < rd.total / (action.max_charges : ℚ)
      · rw [if_pos hlt]
        simp only [Bool.false_eq_true, false_iff]
        rintro ⟨hc1, _⟩
        rcases hc1 with hc | hc
        · exact absurd hact (by rw [hc]; simp)
        · exact absurd hc (not_le.2 hlt)
      · rw [if_neg hlt]
        simp only [true_iff]
        exact ⟨Or.inr (le_of_not_lt hlt), by intro ard h; cases h⟩
    · rw [if_neg (by simp), if_neg hact]
      simp only [true_iff]
      refine ⟨Or.inl ?_, by intro ard h; cases h⟩
      cases hb : rd.is_active
      · rfl
      · exact absurd hb hact
  · -- secondary group present
    have hardnn := hAdd ard hard
    simp only [hard, Option.some_inj]
    have h2iff : (∀ ard', ard = ard' → ard'.remaining ≤ tol)
        ↔ ard.remaining ≤ tol := by
      constructor
      · intro h
        exact h ard rfl
      · intro h a ha
        rw [← ha]
        exact h
    by_cases hblk : ard.is_active = true ∧ tol < ard.remaining
    · -- the secondary group blocks
      rw [if_pos (by simp [hblk.1, hblk.2])]
      simp only [Bool.false_eq_true, false_iff]
      rintro ⟨_, hc2⟩
      rw [h2iff] at hc2
      exact absurd hc2 (not_le.2 hblk.2)
    · -- the secondary group does not block
      have hrem : ard.remaining ≤ tol := by
        by_cases hact2 : ard.is_active = true
        · exact not_lt.1 (not_and.1 hblk hact2)
        · -- inactive with non-negative elapsed time: remaining ≤ 0 ≤ tol
          unfold RecastDetail.is_active at hact2
          simp only [Bool.and_eq_true, decide_eq_true_eq, not_and] at hact2
          unfold RecastDetail.remaining
          by_cases hpos : 0 < ard.total
          · have hle := not_lt.1 (hact2 ⟨hpos, hardnn⟩)
            linarith
          · linarith [not_lt.1 hpos]
      rw [if_neg (by
        intro hc
        simp only [Bool.and_eq_true, decide_eq_true_eq] at hc
        exact hblk ⟨hc.1, hc.2⟩)]
      rw [h2iff]
      by_cases hact : rd.is_active
      · rw [if_pos hact]
        by_cases hlt : rd.time_elapsed + tol < rd.total / (action.max_charges : ℚ)
        · rw [if_pos hlt]
          simp only [Bool.false_eq_true, false_iff]
          rintro ⟨hc1, _⟩
          rcases hc1 with hc | hc
          · exact absurd hact (by rw [hc]; simp)
          · exact absurd hc (not_le.2 hlt)
        · rw [if_neg hlt]
          simp only [true_iff]
          exact ⟨Or.inr (le_of_not_lt hlt), hrem⟩
      · rw [if_neg hact]
        simp only [true_iff]
        refine ⟨Or.inl ?_, hrem⟩
        cases hb : rd.is_active
        · rfl
        · exact absurd hb hact

/-- Witness for C4: a freshly registered two-charge action (group 5,
recast 1000) with no secondary group, with zero tolerance, on an idle
group. -/
theorem is_action_offcooldown_spec_witness :
    ((ActionManager.initial 1 1).register_action
      { action_id := ActionID.TRUE_NORTH, cast_time := 0, recast_time := 1000,
        cooldown_group := 5, additional_recast_time := 0,
        additional_cooldown_group := 0, max_charges := 2,
        animation_lock := 700 }).is_action_offcooldown
      ActionID.TRUE_NORTH (some 0) = true := by
  have h := is_action_offcooldown_spec
    ((ActionManager.initial 1 1).register_action
      { action_id := ActionID.TRUE_NORTH, cast_time := 0, recast_time := 1000,
        cooldown_group := 5, additional_recast_time := 0,
        additional_cooldown_group := 0, max_charges := 2,
        animation_lock := 700 })
    ActionID.TRUE_NORTH 0
    { action_id := ActionID.TRUE_NORTH, cast_time := 0, recast_time := 1000,
      cooldown_group := 5, additional_recast_time := 0,
      additional_cooldown_group := 0, max_charges := 2,
      animation_lock := 700 }
    { RecastDetail.initial with action_id := ActionID.TRUE_NORTH }
    (by norm_num [ActionManager.get_action, ActionManager.register_action,
      ActionManager.initial, lookupGroup, List.find?])
    (by norm_num [ActionManager.get_recast_detail,
      ActionManager.get_recast_group, ActionManager.get_action,
      ActionManager.register_action, ActionManager.initial, lookupGroup,
      RecastDetail.initial, List.find?])
    (le_refl 0)
    (by
      intro ard h
      rw [show ((ActionManager.initial 1 1).register_action
          { action_id := ActionID.TRUE_NORTH, cast_time := 0,
            recast_time := 1000, cooldown_group := 5,
            additional_recast_time := 0, additional_cooldown_group := 0,
            max_charges := 2,
            animation_lock := 700 }).get_additional_recast_detail
          ActionID.TRUE_NORTH = none from by
        norm_num [ActionManager.get_additional_recast_detail,
          ActionManager.get_additional_recast_group, ActionManager.get_action,
          ActionManager.register_action, ActionManager.initial, lookupGroup,
          List.find?]] at h
      cases h)
  rw [h]
  refine ⟨Or.inl ?_, ?_⟩
  · norm_num [RecastDetail.is_active, RecastDetail.initial]
  · intro ard h
    rw [show ((ActionManager.initial 1 1).register_action
        { action_id := ActionID.TRUE_NORTH, cast_time := 0,
          recast_time := 1000, cooldown_group := 5,
          additional_recast_time := 0, additional_cooldown_group := 0,
          max_charges := 2,
          animation_lock := 700 }).get_additional_recast_detail
        ActionID.TRUE_NORTH = none from by
      norm_num [ActionManager.get_additional_recast_detail,
        ActionManager.get_additional_recast_group, ActionManager.get_action,
        ActionManager.register_action, ActionManager.initial, lookupGroup,
        List.find?]] at h
    cases h


/-! ### C5: the cast-apply callback

`ActionManager.start_casting` stores the callback; `_update_action_cast`
fires it during a `step` once the remaining cast time has dropped to
400 ms or less, then clears it. -/

/-- Sums of lists of non-negative rationals are non-negative. -/
theorem sum_nonneg_of_forall (l : List ℚ) (h : ∀ x ∈ l, 0 ≤ x) : 0 ≤ l.sum := by
  induction l with
  | nil => simp
  | cons a t ih =>
    rw [List.sum_cons]
    have ha := h a (List.mem_cons_self a t)
    have ht := ih (fun x hx => h x (List.mem_cons_of_mem a hx))
    linarith

/-- `_update_combo_state` leaves the four casting fields unchanged. -/
theorem update_combo_state_cast (am : ActionManager) (Δ : ℚ) :
    (am.update_combo_state Δ).casting_action_id = am.casting_action_id ∧
      (am.update_combo_state Δ).casting_time = am.casting_time ∧
      (am.update_combo_state Δ).casting_time_max = am.casting_time_max ∧
      (am.update_combo_state Δ).casting_apply_callback =
        am.casting_apply_callback := by
  unfold ActionManager.update_combo_state
  dsimp only
  split
  · split <;> exact ⟨rfl, rfl, rfl, rfl⟩
  · exact ⟨rfl, rfl, rfl, rfl⟩

/-- `_update_action_cast` with no pending callback: nothing fires and the
callback stays cleared. -/
theorem update_action_cast_nocb (am : ActionManager) (Δ : ℚ)
    (hcb : am.casting_apply_callback = false) :
    (am.update_action_cast Δ).2 = 0 ∧
      (am.update_action_cast Δ).1.casting_apply_callback = false := by
  unfold ActionManager.update_action_cast
  dsimp only
  rw [hcb]
  split
  · split <;> exact ⟨by simp, by simp⟩
  · exact ⟨rfl, rfl⟩

/-- `_update_action_cast` while casting with a pending callback, when the
step reaches the 400 ms apply window: the callback fires and is cleared. -/
theorem update_action_cast_fire (am : ActionManager) (Δ : ℚ)
    (h1 : am.casting_action_id ≠ ActionID.NONE) (h2 : 0 < am.casting_time_max)
    (h3 : 0 ≤ am.casting_time) (h4 : am.casting_time < am.casting_time_max)
    (hcb : am.casting_apply_callback = true)
    (hf : am.casting_time_max - 400 ≤ am.casting_time + Δ) :
    (am.update_action_cast Δ).2 = 1 ∧
      (am.update_action_cast Δ).1.casting_apply_callback = false := by
  have hcast : am.is_casting = true := by
    unfold ActionManager.is_casting
    simp only [Bool.and_eq_true, decide_eq_true_eq]
    exact ⟨⟨⟨h1, h2⟩, h3⟩, h4⟩
  have hrem : am.casting_time_max -
      min (am.casting_time + Δ) am.casting_time_max ≤ 400 := by
    rcases le_total (am.casting_time + Δ) am.casting_time_max with h | h
    · rw [min_eq_left h]; linarith
    · rw [min_eq_right h]; linarith
  have hcond : am.casting_time_max -
      min (am.casting_time + Δ) am.casting_time_max ≤ 400 ∧
      am.casting_apply_callback = true := ⟨hrem, hcb⟩
  unfold ActionManager.update_action_cast
  dsimp only
  rw [if_pos hcast]
  simp only [if_pos hcond]
  split <;> exact ⟨rfl, rfl⟩

/-- `_update_action_cast` while casting with a pending callback, when the
step stays strictly before the 400 ms apply window: nothing fires, the
cast advances by the step size, and the callback stays pending. -/
theorem update_action_cast_nofire (am : ActionManager) (Δ : ℚ)
    (h1 : am.casting_action_id ≠ ActionID.NONE) (h2 : 0 < am.casting_time_max)
    (h3 : 0 ≤ am.casting_time) (h4 : am.casting_time < am.casting_time_max)
    (hnf : am.casting_time + Δ < am.casting_time_max - 400) :
    (am.update_action_cast Δ).2 = 0 ∧
      (am.update_action_cast Δ).1.casting_action_id = am.casting_action_id ∧
      (am.update_action_cast Δ).1.casting_time_max = am.casting_time_max ∧
      (am.update_action_cast Δ).1.casting_time = am.casting_time + Δ ∧
      (am.update_action_cast Δ).1.casting_apply_callback =
        am.casting_apply_callback := by
  have hcast : am.is_casting = true := by
    unfold ActionManager.is_casting
    simp only [Bool.and_eq_true, decide_eq_true_eq]
    exact ⟨⟨⟨h1, h2⟩, h3⟩, h4⟩
  have hmin : min (am.casting_time + Δ) am.casting_time_max =
      am.casting_time + Δ := min_eq_left (by linarith)
  have hcond : ¬(am.casting_time_max -
      min (am.casting_time + Δ) am.casting_time_max ≤ 400 ∧
      am.casting_apply_callback = true) := by
    rw [hmin]
    rintro ⟨hc, _⟩
    linarith
  have hrem0 : ¬(am.casting_time_max -
      min (am.casting_time + Δ) am.casting_time_max ≤ 0) := by
    rw [hmin]
    intro hc
    linarith
  unfold ActionManager.update_action_cast
  dsimp only
  rw [if_pos hcast]
  simp only [if_neg hcond, if_neg hrem0]
  exact ⟨trivial, trivial, trivial, hmin, trivial⟩

/-- One `step` with no pending callback: nothing fires and the callback
stays cleared. -/
theorem step_cast_nocb (am : ActionManager) (Δ : ℚ)
    (hcb : am.casting_apply_callback = false) :
    (am.step Δ).2 = 0 ∧ (am.step Δ).1.casting_apply_callback = false := by
  have h := update_action_cast_nocb { am with
    time_since_last_action := am.time_since_last_action + Δ,
    animation_lock := max 0 (am.animation_lock - Δ) } Δ hcb
  unfold ActionManager.step
  dsimp only
  exact ⟨h.1, ((update_combo_state_cast _ Δ).2.2.2).trans h.2⟩

/-- One `step` while casting with a pending callback, reaching the 400 ms
apply window: the callback fires exactly once and is cleared. -/
theorem step_cast_fire (am : ActionManager) (Δ : ℚ)
    (h1 : am.casting_action_id ≠ ActionID.NONE) (h2 : 0 < am.casting_time_max)
    (h3 : 0 ≤ am.casting_time) (h4 : am.casting_time < am.casting_time_max)
    (hcb : am.casting_apply_callback = true)
    (hf : am.casting_time_max - 400 ≤ am.casting_time + Δ) :
    (am.step Δ).2 = 1 ∧ (am.step Δ).1.casting_apply_callback = false := by
  have h := update_action_cast_fire { am with
    time_since_last_action := am.time_since_last_action + Δ,
    animation_lock := max 0 (am.animation_lock - Δ) } Δ h1 h2 h3 h4 hcb hf
  unfold ActionManager.step
  dsimp only
  exact ⟨h.1, ((update_combo_state_cast _ Δ).2.2.2).trans h.2⟩

/-- One `step` while casting with a pending callback, staying strictly
before the 400 ms apply window: nothing fires, the cast advances, the
callback stays pending. -/
theorem step_cast_nofire (am : ActionManager) (Δ : ℚ)
    (h1 : am.casting_action_id ≠ ActionID.NONE) (h2 : 0 < am.casting_time_max)
    (h3 : 0 ≤ am.casting_time) (h4 : am.casting_time < am.casting_time_max)
    (hnf : am.casting_time + Δ < am.casting_time_max - 400) :
    (am.step Δ).2 = 0 ∧
      (am.step Δ).1.casting_action_id = am.casting_action_id ∧
      (am.step Δ).1.casting_time_max = am.casting_time_max ∧
      (am.step Δ).1.casting_time = am.casting_time + Δ ∧
      (am.step Δ).1.casting_apply_callback = am.casting_apply_callback := by
  have h := update_action_cast_nofire { am with
    time_since_last_action := am.time_since_last_action + Δ,
    animation_lock := max 0 (am.animation_lock - Δ) } Δ h1 h2 h3 h4 hnf
  unfold ActionManager.step
  dsimp only
  exact ⟨h.1, ((update_combo_state_cast _ Δ).1).trans h.2.1,
    ((update_combo_state_cast _ Δ).2.2.1).trans h.2.2.1,
    ((update_combo_state_cast _ Δ).2.1).trans h.2.2.2.1,
    ((update_combo_state_cast _ Δ).2.2.2).trans h.2.2.2.2⟩

/-- Once the cast-apply callback is cleared, no later `step` ever fires
it again: every per-step count is zero. -/
theorem runSteps_nocb (Δs : List ℚ) : ∀ am : ActionManager,
    am.casting_apply_callback = false →
    (am.runSteps Δs).2.sum = 0 ∧ ∀ i, (am.runSteps Δs).2.getD i 0 = 0 := by
  induction Δs with
  | nil => exact fun am _ => ⟨rfl, fun i => by simp [ActionManager.runSteps]⟩
  | cons Δ rest ih =>
    intro am hcb
    have hs := step_cast_nocb am Δ hcb
    have hr := ih (am.step Δ).1 hs.2
    simp only [ActionManager.runSteps]
    refine ⟨by rw [List.sum_cons, hs.1, hr.1], fun i => ?_⟩
    cases i with
    | zero => rw [List.getD_cons_zero]; exact hs.1
    | succ j => rw [List.getD_cons_succ]; exact hr.2 j

/-- While the callback is pending and the cast is in progress at elapsed
time `c`, a non-empty sequence of non-negative steps whose total reaches
the apply threshold `castTime - 400` fires the callback exactly once,
at the first step whose cumulative elapsed time reaches the threshold. -/
theorem runSteps_pending (castTime : ℚ) (hct : 0 < castTime) :
    ∀ (Δs : List ℚ) (am : ActionManager) (c : ℚ),
      am.casting_action_id ≠ ActionID.NONE →
      am.casting_time_max = castTime →
      am.casting_time = c →
      0 ≤ c → c < castTime →
      am.casting_apply_callback = true →
      (∀ Δ ∈ Δs, 0 ≤ Δ) →
      castTime - 400 ≤ c + Δs.sum →
      Δs ≠ [] →
      ((am.runSteps Δs).2.sum = 1 ∧
        ∀ i, i < Δs.length →
          ((am.runSteps Δs).2.getD i 0 = 1 ↔
            (castTime - 400 ≤ c + (Δs.take (i + 1)).sum ∧
              (i = 0 ∨ c + (Δs.take i).sum < castTime - 400)))) := by
  intro Δs
  induction Δs with
  | nil => exact fun am c _ _ _ _ _ _ _ _ hne => absurd rfl hne
  | cons Δ rest ih =>
    intro am c h1 h2 h3 hc0 hclt hcb hΔ hcover _
    have hΔ0 : 0 ≤ Δ := hΔ Δ (List.mem_cons_self _ _)
    have hΔrest : ∀ x ∈ rest, 0 ≤ x := fun x hx => hΔ x (List.mem_cons_of_mem _ hx)
    by_cases hfire : castTime - 400 ≤ c + Δ
    · -- this step reaches the apply window: the callback fires here
      have hs := step_cast_fire am Δ h1 (by rw [h2]; exact hct)
        (by rw [h3]; exact hc0) (by rw [h2, h3]; exact hclt) hcb
        (by rw [h2, h3]; exact hfire)
      have hrest := runSteps_nocb rest (am.step Δ).1 hs.2
      simp only [ActionManager.runSteps]
      constructor
      · rw [List.sum_cons, hs.1, hrest.1]
      · intro i _
        cases i with
        | zero =>
          rw [List.getD_cons_zero, hs.1]
          refine iff_of_true rfl ⟨?_, Or.inl rfl⟩
          simpa using hfire
        | succ j =>
          rw [List.getD_cons_succ, hrest.2 j]
          refine iff_of_false (by norm_num) ?_
          rintro ⟨_, hsecond⟩
          rcases hsecond with hj0 | hlt
          · exact absurd hj0 (Nat.succ_ne_zero j)
          · have htk : 0 ≤ (rest.take j).sum :=
              sum_nonneg_of_forall _ (fun x hx => hΔrest x (List.take_subset _ _ hx))
            rw [List.take_succ_cons, List.sum_cons] at hlt
            linarith
    · -- the apply window is not reached yet: nothing fires this step
      push_neg at hfire
      have hs := step_cast_nofire am Δ h1 (by rw [h2]; exact hct)
        (by rw [h3]; exact hc0) (by rw [h2, h3]; exact hclt)
        (by rw [h2, h3]; exact hfire)
      have hrne : rest ≠ [] := by
        rintro rfl
        simp only [List.sum_cons, List.sum_nil, add_zero] at hcover
        linarith
      have hr := ih (am.step Δ).1 (c + Δ)
        (by rw [hs.2.1]; exact h1)
        (by rw [hs.2.2.1]; exact h2)
        (by rw [hs.2.2.2.1, h3])
        (by linarith)
        (by linarith)
        (by rw [hs.2.2.2.2]; exact hcb)
        hΔrest
        (by rw [List.sum_cons] at hcover; linarith)
        hrne
      simp only [ActionManager.runSteps]
      constructor
      · rw [List.sum_cons, hs.1, hr.1]
      · intro i hi
        cases i with
        | zero =>
          rw [List.getD_cons_zero, hs.1]
          refine iff_of_false (by norm_num) ?_
          rintro ⟨hfirst, _⟩
          rw [List.take_succ_cons, List.take_zero] at hfirst
          simp only [List.sum_cons, List.sum_nil, add_zero] at hfirst
          linarith
        | succ j =>
          have hjlen : j < rest.length := by
            simpa using hi
          rw [List.getD_cons_succ, hr.2 j hjlen]
          rw [List.take_succ_cons, List.take_succ_cons, List.sum_cons, List.sum_cons]
          constructor
          · rintro ⟨ha, hb⟩
            refine ⟨by linarith, Or.inr ?_⟩
            rcases hb with rfl | hb'
            · simp only [List.take_zero, List.sum_nil, add_zero]
              linarith
            · linarith
          · rintro ⟨ha, hb⟩
            rcases hb with hb0 | hb'
            · exact absurd hb0 (Nat.succ_ne_zero j)
            · exact ⟨by linarith, Or.inr (by linarith)⟩

/-- C5 (amended).  After `start_casting(aid, castTime, on_apply)` with a
callback and a positive cast time, running any non-empty sequence of
non-negative `step` calls whose total duration reaches `castTime - 400`
(the apply threshold) invokes the callback exactly once, and the
invocation happens at the first step at which the remaining cast time
`casting_time_max - casting_time` has dropped to 400 ms or less.  (The
original claim quantifies over every subsequent step sequence with no
side conditions; a zero cast time, or a sequence too short to reach the
threshold, yields zero invocations — see the counterexample.) -/
theorem cast_apply_fires_once (am : ActionManager) (aid : ActionID)
    (castTime : ℚ) (Δs : List ℚ)
    (haid : aid ≠ ActionID.NONE) (hct : 0 < castTime)
    (hΔ : ∀ Δ ∈ Δs, 0 ≤ Δ) (hne : Δs ≠ [])
    (hcover : castTime - 400 ≤ Δs.sum) :
    (((am.start_casting aid castTime true).runSteps Δs).2.sum = 1 ∧
      ∀ i, i < Δs.length →
        ((((am.start_casting aid castTime true).runSteps Δs).2.getD i 0 = 1) ↔
          (castTime - 400 ≤ (Δs.take (i + 1)).sum ∧
            (i = 0 ∨ (Δs.take i).sum < castTime - 400)))) := by
  have h := runSteps_pending castTime hct Δs (am.start_casting aid castTime true) 0
    haid rfl rfl le_rfl hct rfl hΔ (by simpa only [zero_add] using hcover) hne
  refine ⟨h.1, fun i hi => ?_⟩
  simpa only [zero_add] using h.2 i hi

/-- The original C5 claim fails without side conditions: with a zero cast
time the manager is not casting and the callback is discarded unfired,
and a step sequence shorter than the apply threshold never fires it. -/
theorem cast_apply_counterexample :
    ((((ActionManager.initial 1 1).start_casting ActionID.TRUE_NORTH 0
        true).runSteps [1000]).2.sum = 0) ∧
    ((((ActionManager.initial 1 1).start_casting ActionID.TRUE_NORTH 3000
        true).runSteps [100]).2.sum = 0) := by
  constructor
  · norm_num [ActionManager.runSteps, ActionManager.step,
      ActionManager.update_action_cast, ActionManager.update_combo_state,
      ActionManager.is_casting, ActionManager.start_casting,
      ActionManager.initial, RecastDetail.step]
  · norm_num [ActionManager.runSteps, ActionManager.step,
      ActionManager.update_action_cast, ActionManager.update_combo_state,
      ActionManager.is_casting, ActionManager.start_casting,
      ActionManager.initial, RecastDetail.step]
    split <;> rfl

/-- Witness for C5 at cast time 3000 with steps `[1000, 2000]`: the
callback fires exactly once. -/
theorem cast_apply_fires_once_witness :
    (((ActionManager.initial 1 1).start_casting ActionID.TRUE_NORTH 3000
        true).runSteps [1000, 2000]).2.sum = 1 :=
  (cast_apply_fires_once (ActionManager.initial 1 1) ActionID.TRUE_NORTH 3000
    [1000, 2000]
    (by decide)
    (by norm_num)
    (by
      intro Δ hΔ
      simp only [List.mem_cons, List.not_mem_nil, or_false] at hΔ
      rcases hΔ with rfl | rfl <;> norm_num)
    (List.cons_ne_nil _ _)
    (by norm_num)).1

/-! ### C6: DoT snapshot invariance

`DoTStatus` (core.py): the constructor and `refresh` call `take_snapshot`,
which stores `source.calculate_potency_damage(potency, action_id, DOT)`
into `snapshot_damage`; `tick` applies the stored `snapshot_damage` to the
target.  The source character's stats and statuses are abstracted into a
state type `Src`, and `calculate_potency_damage` for DoT damage into a
function `calcDot : Src → ActionID → ℚ → Dmg`; mutating the source's
statuses or stats between events is an arbitrary function `Src → Src`. -/

/-- `DoTStatus` of core.py: `has_source` / `has_target` model the truthiness
of the `source` / `target` references, `snapshot_damage` the stored
snapshot (`None` until one is taken). -/
structure DoTStatus (Dmg : Type) where
  action_id : ActionID
  duration : ℚ
  time_elapsed : ℚ
  potency : ℚ
  has_source : Bool
  has_target : Bool
  snapshot_damage : Option Dmg

/-- `DoTStatus.take_snapshot`: recompute `snapshot_damage` from the
source's current state, when a source is present. -/
def DoTStatus.take_snapshot {Src Dmg : Type} (calcDot : Src → ActionID → ℚ → Dmg)
    (src : Src) (d : DoTStatus Dmg) : DoTStatus Dmg :=
  if d.has_source then
    { d with snapshot_damage := some (calcDot src d.action_id d.potency) }
  else d

/-- `DoTStatus.__init__`: the snapshot is taken at creation. -/
def mkDoTStatus {Src Dmg : Type} (calcDot : Src → ActionID → ℚ → Dmg) (src : Src)
    (aid : ActionID) (duration potency : ℚ) (has_source has_target : Bool) :
    DoTStatus Dmg :=
  DoTStatus.take_snapshot calcDot src
    { action_id := aid, duration := duration, time_elapsed := 0,
      potency := potency, has_source := has_source, has_target := has_target,
      snapshot_damage := none }

/-- `StatusEffect.step(delta_time)` as inherited by `DoTStatus`. -/
def DoTStatus.step {Dmg : Type} (d : DoTStatus Dmg) (delta_time : ℚ) :
    DoTStatus Dmg :=
  { d with duration := max 0 (d.duration - delta_time),
           time_elapsed := d.time_elapsed + delta_time }

/-- `DoTStatus.refresh(other)`: adopt the new application's source and
duration (`StatusEffect.refresh`), then take a new snapshot. -/
def DoTStatus.refresh {Src Dmg : Type} (calcDot : Src → ActionID → ℚ → Dmg)
    (src : Src) (d other : DoTStatus Dmg) : DoTStatus Dmg :=
  DoTStatus.take_snapshot calcDot src
    { d with has_source := other.has_source, duration := other.duration }

/-- `DoTStatus.tick`: apply the stored snapshot to the target
(`target.take_damage` appends to the target's damage record). -/
def DoTStatus.tick {Dmg : Type} (d : DoTStatus Dmg) (damage_taken : List Dmg) :
    List Dmg :=
  if d.has_target then
    match d.snapshot_damage with
    | some dmg => damage_taken ++ [dmg]
    | none => damage_taken
  else damage_taken

/-- The world a DoT lives in: the source character's mutable state, the
DoT status, and the target's damage record. -/
structure DotWorld (Src Dmg : Type) where
  source : Src
  dot : DoTStatus Dmg
  damage_taken : List Dmg

/-- The events that can happen to that world between construction and a
tick: an arbitrary mutation of the source's stats or statuses, a time
step, a refresh by a fresh application, and a server tick. -/
inductive DotEvent (Src : Type) where
  | mutate (f : Src → Src)
  | stepTime (δ : ℚ)
  | refresh (duration : ℚ)
  | tick

/-- One event acting on the world. -/
def dotStep {Src Dmg : Type} (calcDot : Src → ActionID → ℚ → Dmg)
    (w : DotWorld Src Dmg) : DotEvent Src → DotWorld Src Dmg
  | .mutate f => { w with source := f w.source }
  | .stepTime δ => { w with dot := w.dot.step δ }
  | .refresh dur =>
    let other : DoTStatus Dmg :=
      mkDoTStatus calcDot w.source w.dot.action_id dur w.dot.potency true true
    { w with dot := DoTStatus.refresh calcDot w.source w.dot other }
  | .tick => { w with damage_taken := w.dot.tick w.damage_taken }

/-- A sequence of events acting on the world. -/
def dotRun {Src Dmg : Type} (calcDot : Src → ActionID → ℚ → Dmg)
    (w : DotWorld Src Dmg) : List (DotEvent Src) → DotWorld Src Dmg
  | [] => w
  | e :: es => dotRun calcDot (dotStep calcDot w e) es

/-- The spec's snapshot semantics, written from its words: walking the
event list with the live source state `cur` and the source state `snap`
captured at the last apply or refresh, every tick delivers the damage
computed from `snap`, untouched by mutations of `cur`. -/
def specSnapshotTicks {Src Dmg : Type} (calcDot : Src → ActionID → ℚ → Dmg)
    (aid : ActionID) (potency : ℚ) :
    Src → Src → List (DotEvent Src) → List Dmg
  | _, _, [] => []
  | cur, snap, .mutate f :: es =>
    specSnapshotTicks calcDot aid potency (f cur) snap es
  | cur, snap, .stepTime _ :: es =>
    specSnapshotTicks calcDot aid potency cur snap es
  | cur, _, .refresh _ :: es =>
    specSnapshotTicks calcDot aid potency cur cur es
  | cur, snap, .tick :: es =>
    calcDot snap aid potency :: specSnapshotTicks calcDot aid potency cur snap es

/-- Invariant induction behind C6: if the stored snapshot is the damage
computed from some past source state `snap`, the run's damage record is
the spec-side tick list. -/
theorem dotRun_snapshot {Src Dmg : Type} (calcDot : Src → ActionID → ℚ → Dmg)
    (aid : ActionID) (potency : ℚ) :
    ∀ (es : List (DotEvent Src)) (w : DotWorld Src Dmg) (snap : Src),
      w.dot.action_id = aid → w.dot.potency = potency →
      w.dot.has_source = true → w.dot.has_target = true →
      w.dot.snapshot_damage = some (calcDot snap aid potency) →
      (dotRun calcDot w es).damage_taken =
        w.damage_taken ++ specSnapshotTicks calcDot aid potency w.source snap es := by
  intro es
  induction es with
  | nil =>
    intro w snap _ _ _ _ _
    simp [dotRun, specSnapshotTicks]
  | cons e es ih =>
    intro w snap haid hpot hsrc htgt hsnap
    cases e with
    | mutate f =>
      rw [dotRun, dotStep, specSnapshotTicks]
      exact ih _ snap haid hpot hsrc htgt hsnap
    | stepTime δ =>
      rw [dotRun, dotStep, specSnapshotTicks]
      exact ih _ snap haid hpot hsrc htgt hsnap
    | refresh dur =>
      rw [dotRun, dotStep, specSnapshotTicks]
      refine ih _ w.source ?_ ?_ ?_ ?_ ?_ <;>
        simp [DoTStatus.refresh, DoTStatus.take_snapshot, mkDoTStatus,
          haid, hpot, htgt]
    | tick =>
      rw [dotRun, dotStep, specSnapshotTicks]
      rw [ih { source := w.source, dot := w.dot,
               damage_taken := w.dot.tick w.damage_taken } snap
        haid hpot hsrc htgt hsnap]
      simp [DoTStatus.tick, htgt, hsnap]

/-- C6.  Snapshot invariance: construct a DoT (with present source and
target) over any source state, then run any sequence of source
mutations, time steps, refreshes and ticks; the target's damage record
equals the spec-side snapshot semantics, in which every tick delivers
the damage computed from the source's state at the last apply or
refresh — mutations of the source between apply/refresh and tick never
change the damage a tick delivers. -/
theorem dot_snapshot_invariance {Src Dmg : Type}
    (calcDot : Src → ActionID → ℚ → Dmg) (s0 : Src) (aid : ActionID)
    (duration potency : ℚ) (es : List (DotEvent Src)) :
    (dotRun calcDot
        { source := s0,
          dot := mkDoTStatus calcDot s0 aid duration potency true true,
          damage_taken := [] } es).damage_taken =
      specSnapshotTicks calcDot aid potency s0 s0 es := by
  have h := dotRun_snapshot calcDot aid potency es
    { source := s0,
      dot := mkDoTStatus calcDot s0 aid duration potency true true,
      damage_taken := [] } s0 rfl rfl rfl rfl rfl
  simpa using h

/-! ### C7 and C8: the statistical distributions (xivstats.py)

A bounded distribution is abstracted to its four stats; numbers that pass
through Python float division live in `ℚ`, exact for the decimal values
involved.  A Python exception is an `Except` error: `w / total` with
`total = 0.0` raises `ZeroDivisionError`. -/

/-- The Python exceptions the embedded constructors can raise. -/
inductive PyErr where
  | valueError
  | zeroDivisionError
deriving DecidableEq, Repr

/-- Python float division: raises `ZeroDivisionError` on a zero divisor. -/
def pydiv (a b : ℚ) : Except PyErr ℚ :=
  if b = 0 then .error .zeroDivisionError else .ok (a / b)

/-- `np.isclose(a, b, rtol=1e-5)` with the default `atol = 1e-8`:
`|a - b| <= atol + rtol * |b|`. -/
def npIsClose (a b : ℚ) : Bool :=
  decide (|a - b| ≤ 1 / 100000000 + (1 / 100000) * |b|)

/-- `BoundedDistribution`, abstracted to its four stats. -/
structure BoundedDistribution where
  min : ℚ
  max : ℚ
  mean : ℚ
  var : ℚ
deriving DecidableEq, Repr

/-- `UniformDistribution(min_value, max_value)`:
`_mean = (min + max) / 2`, `_var = (max - min)**2 / 12`. -/
def UniformDistribution (min_value max_value : ℚ) : BoundedDistribution :=
  { min := min_value, max := max_value,
    mean := (min_value + max_value) / 2,
    var := (max_value - min_value) ^ 2 / 12 }

/-- Python `min(...)` over a non-empty sequence (the empty case is guarded
at every use site, as in the source). -/
def pyMin : List ℚ → ℚ
  | [] => 0
  | x :: xs => xs.foldl min x

/-- Python `max(...)` over a non-empty sequence (the empty case is guarded
at every use site, as in the source). -/
def pyMax : List ℚ → ℚ
  | [] => 0
  | x :: xs => xs.foldl max x

/-- `[w / total for w in weights]`: the first zero division raises. -/
def normalizeWeights (total : ℚ) : List ℚ → Except PyErr (List ℚ)
  | [] => .ok []
  | w :: ws =>
    match pydiv w total with
    | .error e => .error e
    | .ok q =>
      match normalizeWeights total ws with
      | .error e => .error e
      | .ok rest => .ok (q :: rest)

/-- `MixtureDistribution` after `__init__` and `_calculate_stats`. -/
structure MixtureDistribution where
  components : List BoundedDistribution
  weights : List ℚ
  nonzero_components : List BoundedDistribution
  nonzero_weights : List ℚ
  min_value : ℚ
  max_value : ℚ
  mean_value : ℚ
  var_value : ℚ

/-- `MixtureDistribution.__init__(components, weights)`: length check;
renormalization when the weights do not sum to 1 within `np.isclose`
tolerance (`rtol=1e-5`); the zero-weight components filtered out; then
`_calculate_stats` (all-zero stats for an empty non-zero list, otherwise
component extremes and the law-of-total-variance moments). -/
def MixtureDistribution.init (components : List BoundedDistribution)
    (weights : List ℚ) : Except PyErr MixtureDistribution :=
  if components.length ≠ weights.length then .error .valueError
  else
    let normalized : Except PyErr (List ℚ) :=
      if npIsClose weights.sum 1 then .ok weights
      else normalizeWeights weights.sum weights
    match normalized with
    | .error e => .error e
    | .ok ws =>
      let pairs := (ws.zip components).filter (fun p => decide (0 < p.1))
      let nzw := pairs.map Prod.fst
      let nzc := pairs.map Prod.snd
      if nzc.isEmpty then
        .ok { components := components, weights := ws,
              nonzero_components := nzc, nonzero_weights := nzw,
              min_value := 0, max_value := 0, mean_value := 0, var_value := 0 }
      else
        let mean := (pairs.map (fun p => p.1 * p.2.mean)).sum
        let vt1 := (pairs.map (fun p => p.1 * p.2.var)).sum
        let vt2 := (pairs.map (fun p => p.1 * (p.2.mean - mean) ^ 2)).sum
        .ok { components := components, weights := ws,
              nonzero_components := nzc, nonzero_weights := nzw,
              min_value := pyMin (nzc.map BoundedDistribution.min),
              max_value := pyMax (nzc.map BoundedDistribution.max),
              mean_value := mean, var_value := vt1 + vt2 }

/-- C7.  The degenerate mixture is NOT guarded: a non-empty all-zero
weight list fails the `np.isclose(sum, 1)` check, and the renormalization
`w / total` divides by `total = 0.0`, raising `ZeroDivisionError` before
the empty-non-zero-components guard in `_calculate_stats` is ever
reached — the constructor propagates an exception instead of returning
the claimed zero stats. -/
theorem mixture_zero_weights_bug :
    MixtureDistribution.init [UniformDistribution 0 0] [0] =
      Except.error PyErr.zeroDivisionError := by
  norm_num [MixtureDistribution.init, npIsClose, normalizeWeights, pydiv,
    UniformDistribution]

/-- `SumDistribution` after `__init__`: the four stats are the sums of
the components' stats; the FFT convolution approximation is computed
lazily on first `cdf`/`sample` call and never feeds back into them. -/
structure SumDistribution where
  distributions : List BoundedDistribution
  min_value : ℚ
  max_value : ℚ
  mean_value : ℚ
  var_value : ℚ

/-- `SumDistribution.__init__(distributions)`. -/
def SumDistribution.init (distributions : List BoundedDistribution) :
    SumDistribution :=
  { distributions := distributions,
    min_value := (distributions.map BoundedDistribution.min).sum,
    max_value := (distributions.map BoundedDistribution.max).sum,
    mean_value := (distributions.map BoundedDistribution.mean).sum,
    var_value := (distributions.map BoundedDistribution.var).sum }

/-- C8.  `SumDistribution`'s moments are exactly additive: concatenating
component lists adds the min, max, mean and variance, and the sum of two
`UniformDistribution(10, 20)` has min 20, max 40, mean 30 and variance
50/3 exactly. -/
theorem sum_distribution_moments :
    (∀ l1 l2 : List BoundedDistribution,
      (SumDistribution.init (l1 ++ l2)).min_value =
          (SumDistribution.init l1).min_value +
            (SumDistribution.init l2).min_value ∧
        (SumDistribution.init (l1 ++ l2)).max_value =
          (SumDistribution.init l1).max_value +
            (SumDistribution.init l2).max_value ∧
        (SumDistribution.init (l1 ++ l2)).mean_value =
          (SumDistribution.init l1).mean_value +
            (SumDistribution.init l2).mean_value ∧
        (SumDistribution.init (l1 ++ l2)).var_value =
          (SumDistribution.init l1).var_value +
            (SumDistribution.init l2).var_value) ∧
    ((SumDistribution.init
          [UniformDistribution 10 20, UniformDistribution 10 20]).min_value = 20 ∧
      (SumDistribution.init
          [UniformDistribution 10 20, UniformDistribution 10 20]).max_value = 40 ∧
      (SumDistribution.init
          [UniformDistribution 10 20, UniformDistribution 10 20]).mean_value = 30 ∧
      (SumDistribution.init
          [UniformDistribution 10 20, UniformDistribution 10 20]).var_value = 50 / 3) := by
  constructor
  · intro l1 l2
    refine ⟨?_, ?_, ?_, ?_⟩ <;>
      simp [SumDistribution.init, List.map_append, List.sum_append]
  · norm_num [SumDistribution.init, UniformDistribution]

/-! ### C9: the Rotation round trip

`Rotation.to_dict` serializes each action as a single-key dict
`{action_id.name: {"id": ..., "time": ..., "has_condition": ...}}`;
`Rotation.from_dict` resolves each key with `getattr(ActionID, name,
None)`, skips unresolved names, and re-adds the action with its time
(conditions and targeting are not serialized).  Condition callbacks are
abstracted to an arbitrary type `Cond`; the runtime-only `owner`
reference is not part of the serialized state. -/

/-- `TargetType` (core.py). -/
inductive TargetType where
  | CURRENT | MAIN_TANK | OFF_TANK | SELF | NEAREST | LOWEST_HP
  | HEALER | DPS | SPECIFIC
deriving DecidableEq, Repr

/-- `RotationAction`. -/
structure RotationAction (Cond : Type) where
  action_id : ActionID
  time : Option ℤ
  condition : Option Cond
  target_type : TargetType
  target_id : Option ℤ

/-- `Rotation` (the serializable state; `owner` is a runtime reference). -/
structure Rotation (Cond : Type) where
  name : String
  actions : List (RotationAction Cond)
  current_index : ℤ
  enabled : Bool
  last_cast_time : Option ℤ
  gcd_used : Option ℤ

/-- One serialized action entry's value dict. -/
structure RotEntryDetails where
  id : ℤ
  time : Option ℤ
  has_condition : Bool
deriving DecidableEq, Repr

/-- The dictionary `to_dict` produces: each element of `actions` is a
single-key dict, keyed by the action's enum name. -/
structure RotationDict where
  name : String
  actions : List (String × RotEntryDetails)

/-- `Rotation.to_dict`. -/
def Rotation.to_dict {Cond : Type} (r : Rotation Cond) : RotationDict :=
  { name := r.name,
    actions := r.actions.map (fun a =>
      (a.action_id.pyName,
        { id := a.action_id.val, time := a.time,
          has_condition := a.condition.isSome })) }

/-- `Rotation.from_dict`: `Rotation(name)` then, per entry,
`getattr(ActionID, action_name, None)` and — when resolved —
`add_action(action_id, time)`, which appends a `RotationAction` with no
condition and default targeting. -/
def Rotation.from_dict (Cond : Type) (d : RotationDict) : Rotation Cond :=
  { name := d.name,
    actions := d.actions.filterMap (fun p =>
      (getattrActionID p.1).map (fun aid =>
        ({ action_id := aid, time := p.2.time, condition := none,
           target_type := TargetType.CURRENT,
           target_id := none } : RotationAction Cond))),
    current_index := 0, enabled := false,
    last_cast_time := none, gcd_used := none }

/-- C9.  Round trip: rebuilding a rotation from its serialized form
reproduces the same name and the same ordered list of
`(action_id, time)` pairs — for every entry, including condition-bearing
ones, since every `ActionID`'s canonical enum name resolves back to the
same member (`getattr_pyName`); only the condition callbacks themselves
and the targeting fields are dropped. -/
theorem rotation_round_trip {Cond : Type} (r : Rotation Cond) :
    (Rotation.from_dict Cond r.to_dict).actions.map
        (fun a => (a.action_id, a.time)) =
      r.actions.map (fun a => (a.action_id, a.time)) ∧
    (Rotation.from_dict Cond r.to_dict).name = r.name := by
  refine ⟨?_, rfl⟩
  unfold Rotation.from_dict Rotation.to_dict
  dsimp only
  induction r.actions with
  | nil => rfl
  | cons a t ih =>
    simp only [List.map_cons, List.filterMap_cons, getattr_pyName,
      Option.map_some']
    simp only [List.map_cons] at ih ⊢
    rw [ih]

/-! ### C10: `Arena.get_player`

`get_player(player_id)` tests `player_id in self.players`, a membership
test over the `Player` objects themselves.  Neither `Player` nor any of
its bases defines `__eq__`, so `int == Player` falls back to identity:
`int.__eq__` returns `NotImplemented` for a `Player`, the reflected
`object.__eq__` likewise, and Python then compares identity — an `int`
is never the same object as a `Player`, so the comparison is always
`False` and the membership test never succeeds. -/

/-- `Player`, reduced to the identifying field the lookup is meant to
match against. -/
structure Player where
  entity_id : ℤ

/-- Python `player_id == p` for an `int` and a `Player`: always `False`
(no `__eq__` on either side applies, identity comparison fails). -/
def pyIntEqPlayer (player_id : ℤ) (p : Player) : Bool :=
  false

/-- `Arena.get_player(player_id)`: membership test with Python `==`,
then (if it succeeded) indexing `self.players[player_id]`. -/
def Arena.get_player (players : List Player) (player_id : ℤ) : Option Player :=
  if players.any (fun p => pyIntEqPlayer player_id p) then
    players.get? player_id.toNat
  else none

/-- C10.  The lookup never resolves: for every players list — including
one containing a player whose `entity_id` equals `player_id` — and every
integer id, `get_player` returns `None`, because the membership test
compares the integer against the `Player` objects themselves. -/
theorem get_player_always_none (players : List Player) (player_id : ℤ) :
    Arena.get_player players player_id = none := by
  unfold Arena.get_player
  have h : players.any (fun p => pyIntEqPlayer player_id p) = false := by
    simp [pyIntEqPlayer]
  rw [h]
  simp

end XivCore
